import Mathlib

/-!
Verification development for the manuscript-markdown translator.

Part I embeds, directly from the repository sources, the code-region
scanner (two variants of computeCodeRegions shipped in the repository)
and the binary-search membership test isInsideCodeRegion.

Part II models, from the written specification and design documents,
the components whose implementation files are not part of the source
snapshot: the citation identifier map, the OMML-to-LaTeX math
translator, the markup builder, the run-property generator of the
markup-to-package converter, and a line-based round-trip pipeline.

Theorems for all claims follow the definitions.
-/

namespace CodeRegions

/-- The backtick character, written via its code point. -/
def backquote : Char := Char.ofNat 96

/-- A half-open code region [start, stop) in character offsets,
mirroring the CodeRegion interface of the source. -/
structure CodeRegion where
  start : Nat
  stop : Nat
deriving DecidableEq, Repr

/-- State of an open fenced code block during the fence scan:
fence character, fence length, and offset of the opening line,
mirroring the openFence record of computeCodeRegions. -/
structure OpenFence where
  ch : Char
  cnt : Nat
  first : Nat
deriving DecidableEq, Repr

/-- Split a character list into lines together with the offset of each
line start, mirroring the line decomposition performed by the
multiline-anchored fence regular expression of computeCodeRegions.
Arguments: remaining characters, offset of the current line start,
reversed accumulator of the current line, current offset. -/
def linesAux : List Char → Nat → List Char → Nat → List (Nat × List Char)
  | [], lineStart, acc, _ => [(lineStart, acc.reverse)]
  | c :: cs, lineStart, acc, pos =>
    if c = '\n' then (lineStart, acc.reverse) :: linesAux cs (pos + 1) [] (pos + 1)
    else linesAux cs lineStart (c :: acc) (pos + 1)

/-- All lines of a text with their start offsets. -/
def linesWithPos (text : List Char) : List (Nat × List Char) :=
  linesAux text 0 [] 0

/-- Recognize a fence line: a line starting with a run of at least three
backticks or at least three tildes, returning the fence character and
the run length.  This mirrors the anchored alternation of the fence
regular expression in computeCodeRegions. -/
def fenceInfo (line : List Char) : Option (Char × Nat) :=
  match line with
  | [] => none
  | c :: _ =>
    if c = backquote ∨ c = '~' then
      let cnt := (line.takeWhile (fun d => d = c)).length
      if 3 ≤ cnt then some (c, cnt) else none
    else none

/-- The whitespace characters removed by the JavaScript string trim
method (WhiteSpace and LineTerminator code points). -/
def jsWhitespace : List Char :=
  [' ', '\t', '\n', '\r', Char.ofNat 11, Char.ofNat 12, Char.ofNat 160, Char.ofNat 0x1680,
   Char.ofNat 0x2000, Char.ofNat 0x2001, Char.ofNat 0x2002, Char.ofNat 0x2003,
   Char.ofNat 0x2004, Char.ofNat 0x2005, Char.ofNat 0x2006, Char.ofNat 0x2007,
   Char.ofNat 0x2008, Char.ofNat 0x2009, Char.ofNat 0x200a, Char.ofNat 0x202f,
   Char.ofNat 0x205f, Char.ofNat 0x3000, Char.ofNat 0x2028, Char.ofNat 0x2029,
   Char.ofNat 0xfeff]

/-- Whether a character is JavaScript whitespace. -/
def isJsSpace (c : Char) : Bool := c ∈ jsWhitespace

/-- The fenced-code-block pass shared by the two computeCodeRegions
variants in the repository.  When strictClose is true this is the
optimized variant, whose closing fence must additionally have an empty
info string (only whitespace after the fence run); when strictClose is
false it is the plain variant, which closes on any fence line with the
same character and at least the opening run length.  An unclosed fence
extends to the end of the text (offset n). -/
def fenceScan (strictClose : Bool) (n : Nat) :
    List (Nat × List Char) → Option OpenFence → List CodeRegion
  | [], none => []
  | [], some o => [⟨o.first, n⟩]
  | (idx, line) :: rest, st =>
    match fenceInfo line with
    | none => fenceScan strictClose n rest st
    | some (c, cnt) =>
      match st with
      | none => fenceScan strictClose n rest (some ⟨c, cnt, idx⟩)
      | some o =>
        if c = o.ch ∧ o.cnt ≤ cnt ∧ (strictClose → (line.drop cnt).all isJsSpace) then
          ⟨o.first, idx + line.length⟩ :: fenceScan strictClose n rest none
        else fenceScan strictClose n rest st

/-- The early-exit containment query of the optimized variant: walk the
region list in order, stop with none as soon as the position is left of
a region start, return the first region containing the position. -/
def findContainingRegion : List CodeRegion → Nat → Option CodeRegion
  | [], _ => none
  | r :: rs, pos =>
    if pos < r.start then none
    else if pos < r.stop then some r
    else findContainingRegion rs pos

/-- The containment query of the plain variant: the first region in
list order containing the position (the some-then-find idiom of the
source collapses to a single find). -/
def findInsideFence (regions : List CodeRegion) (pos : Nat) : Option CodeRegion :=
  regions.find? (fun r => decide (r.start ≤ pos ∧ pos < r.stop))

/-- Length of the run of a given character starting at offset i,
mirroring the backtick-counting loops of the inline-span scan. -/
def countRun (text : List Char) (i : Nat) (c : Char) : Nat :=
  ((text.drop i).takeWhile (fun d => d = c)).length

/-- The inner loop of the inline-code-span scan, searching from offset
j for a closing backtick run of exactly btCount backticks, skipping
over regions reported by the containment query.  Returns the offset
just past the closing run when found.  Both variants share this
structure and differ only in the query passed in.  Fuel bounds the
iteration count; the offset strictly increases every step, so the
callers pass fuel exceeding the text length, which never runs out. -/
def scanInner (query : List CodeRegion → Nat → Option CodeRegion)
    (text : List Char) (regions : List CodeRegion) (btCount : Nat) :
    Nat → Nat → Option Nat
  | 0, _ => none
  | fuel + 1, j =>
    if j < text.length then
      match query regions j with
      | some r => scanInner query text regions btCount fuel r.stop
      | none =>
        if text.get? j = some backquote then
          if countRun text j backquote = btCount then some (j + countRun text j backquote)
          else scanInner query text regions btCount fuel (j + countRun text j backquote)
        else scanInner query text regions btCount fuel (j + 1)
    else none

/-- The outer loop of the inline-code-span scan: walk the text, skip
regions reported by the containment query, and on a backtick run
search for a matching closer with the inner loop; a found span is
appended to the region list.  Both variants share this structure and
differ only in the query. -/
def scanOuter (query : List CodeRegion → Nat → Option CodeRegion)
    (text : List Char) : Nat → Nat → List CodeRegion → List CodeRegion
  | 0, _, regions => regions
  | fuel + 1, i, regions =>
    if i < text.length then
      match query regions i with
      | some r => scanOuter query text fuel r.stop regions
      | none =>
        if text.get? i = some backquote then
          match scanInner query text regions (countRun text i backquote) (text.length + 1)
              (i + countRun text i backquote) with
          | some j => scanOuter query text fuel j (regions ++ [⟨i, j⟩])
          | none => scanOuter query text fuel (i + countRun text i backquote) regions
        else scanOuter query text fuel (i + 1) regions
    else regions

/-- Ordering of regions by start offset, the comparator of the final
sort in computeCodeRegions. -/
def regionLE (a b : CodeRegion) : Prop := a.start ≤ b.start

instance : DecidableRel regionLE := fun a b => inferInstanceAs (Decidable (a.start ≤ b.start))

instance : IsTotal CodeRegion regionLE := ⟨fun a b => Nat.le_total a.start b.start⟩

instance : IsTrans CodeRegion regionLE := ⟨fun _ _ _ hab hbc => Nat.le_trans hab hbc⟩

/-- Stable sort by region start, modelling the final
regions.sort((a, b) => a.start - b.start) of computeCodeRegions. -/
def sortRegions (rs : List CodeRegion) : List CodeRegion :=
  rs.insertionSort regionLE

/-- The optimized computeCodeRegions variant (findContainingRegion
query with early exit, closing fence requires an empty info string). -/
def computeCodeRegionsA (text : List Char) : List CodeRegion :=
  sortRegions (scanOuter findContainingRegion text (text.length + 1) 0
    (fenceScan true text.length (linesWithPos text) none))

/-- The plain computeCodeRegions variant (linear containment query, no
info-string check on the closing fence). -/
def computeCodeRegionsB (text : List Char) : List CodeRegion :=
  sortRegions (scanOuter findInsideFence text (text.length + 1) 0
    (fenceScan false text.length (linesWithPos text) none))

/-- The loop of isInsideCodeRegion: binary search over the region list
with inclusive integer bounds lo and hi (hi may be -1).  With the loop
running only while lo is at most hi, the JavaScript unsigned midpoint
shift equals natural-number halving.  Fuel bounds the iteration count;
the interval shrinks every step, so the caller passes fuel exceeding
the list length, which never runs out. -/
def bsearchGo (regions : List CodeRegion) (offset : Nat) : Nat → Nat → Int → Bool
  | 0, _, _ => false
  | fuel + 1, lo, hi =>
    if (lo : Int) ≤ hi then
      match regions.get? ((lo + hi.toNat) / 2) with
      | some r =>
        if offset < r.start then
          bsearchGo regions offset fuel lo ((((lo + hi.toNat) / 2 : Nat) : Int) - 1)
        else if r.stop ≤ offset then bsearchGo regions offset fuel ((lo + hi.toNat) / 2 + 1) hi
        else true
      | none => false
    else false

/-- Binary-search membership test over a region list, mirroring
isInsideCodeRegion of the source. -/
def isInsideCodeRegion (offset : Nat) (regions : List CodeRegion) : Bool :=
  bsearchGo regions offset (regions.length + 1) 0 ((regions.length : Int) - 1)

/-- A region covers an offset when the offset lies in [start, stop). -/
def covers (r : CodeRegion) (offset : Nat) : Prop :=
  r.start ≤ offset ∧ offset < r.stop

instance (r : CodeRegion) (offset : Nat) : Decidable (covers r offset) :=
  inferInstanceAs (Decidable (r.start ≤ offset ∧ offset < r.stop))

/-- A region list sorted by start offset. -/
def sortedByStart (rs : List CodeRegion) : Prop :=
  List.Pairwise regionLE rs

/-- Two regions overlap when some offset is covered by both,
equivalently when the larger start is below the smaller stop. -/
def regionsOverlap (a b : CodeRegion) : Prop :=
  max a.start b.start < min a.stop b.stop

instance (a b : CodeRegion) : Decidable (regionsOverlap a b) :=
  inferInstanceAs (Decidable (max a.start b.start < min a.stop b.stop))

/-- Pairwise non-overlapping region list. -/
def pairwiseNonOverlapping (rs : List CodeRegion) : Prop :=
  List.Pairwise (fun a b => ¬ regionsOverlap a b) rs

instance (rs : List CodeRegion) : Decidable (sortedByStart rs) :=
  inferInstanceAs (Decidable (List.Pairwise regionLE rs))

instance (rs : List CodeRegion) : Decidable (pairwiseNonOverlapping rs) :=
  inferInstanceAs (Decidable (List.Pairwise (fun a b => ¬ regionsOverlap a b) rs))

/-- Each region is well formed and within the text:
start below stop, stop at most the text length. -/
def regionsWithinBounds (rs : List CodeRegion) (n : Nat) : Prop :=
  ∀ r ∈ rs, r.start < r.stop ∧ r.stop ≤ n

instance (rs : List CodeRegion) (n : Nat) : Decidable (regionsWithinBounds rs n) :=
  inferInstanceAs (Decidable (∀ r ∈ rs, r.start < r.stop ∧ r.stop ≤ n))

/-- Every fence line of the text carries only whitespace after its
fence run (no info strings).  On such inputs the closing-fence checks
of the two computeCodeRegions variants coincide. -/
def cleanFenceLines (text : List Char) : Bool :=
  (linesWithPos text).all fun e =>
    match fenceInfo e.2 with
    | some (_, cnt) => (e.2.drop cnt).all isJsSpace
    | none => true

/-- Concrete input separating the two computeCodeRegions variants: a
fence opened on the first line and a candidate closing fence carrying
an info string. -/
def sepText : List Char := "```\nx\n``` a\ny".toList

/-- Concrete clean input: every fence line carries only its fence run,
and the text holds both a fenced block and an inline span. -/
def cleanSample : List Char := "```\nco`de\n```\nx `y` z".toList

/-- Concrete input on which the optimized computeCodeRegions returns
overlapping regions: an inline span whose closing backtick lies beyond
an intervening fenced block, so the span swallows the fence region. -/
def overlapText : List Char := "`a\n```\nb\n```\nc`".toList

/-- Concrete region list witnessing that sortedness and pairwise
non-overlap alone do not support the binary search: the middle region
is degenerate (stop below start), so it overlaps nothing, yet it
misdirects the search away from the covering first region. -/
def degenerateRegions : List CodeRegion := [⟨0, 200⟩, ⟨100, 0⟩, ⟨300, 400⟩]

end CodeRegions

namespace Citations

/-- Modelled from the spec: a bibliography entry as needed by the
identifier logic of buildCitationFieldCode (src/md-to-docx-citations.ts
is not part of the source snapshot).  The two optional provenance
fields mark an entry as originating from, and resolvable by, the
external reference manager. -/
structure BibEntry where
  key : String
  zoteroKey : Option String
  zoteroUri : Option String
deriving DecidableEq, Repr

/-- A rendered field-code identifier: either a numeric identifier or
the citation key string itself. -/
inductive FieldId where
  | num (n : Nat)
  | str (s : String)
deriving DecidableEq, Repr

/-- The per-export identifier map (itemIdMap), an insertion-ordered
association of citation keys to identifiers; its length plays the role
of the map size. -/
abbrev IdMap := List (String × FieldId)

/-- First binding of a key in the identifier map. -/
def lookupId (m : IdMap) (k : String) : Option FieldId :=
  (m.find? (fun e => e.1 = k)).map (fun e => e.2)

/-- Modelled from the spec: the identifier assignment step of
buildCitationFieldCode after the citation-id fix.  A key already in
the map reuses its identifier; otherwise an entry with an external URI
receives the numeric identifier size-plus-one, and an entry without
one receives its citation key string; the new binding is recorded. -/
def assignFieldId (entry : BibEntry) (m : IdMap) : FieldId × IdMap :=
  match lookupId m entry.key with
  | some i => (i, m)
  | none =>
    let i := if entry.zoteroUri.isSome then FieldId.num (m.length + 1)
             else FieldId.str entry.key
    (i, m ++ [(entry.key, i)])

/-- Resolve a citation key against the bibliography store. -/
def resolveKey (entries : List BibEntry) (k : String) : Option BibEntry :=
  entries.find? (fun e => e.key = k)

/-- Modelled from the spec: one export call processes the cited keys in
order, skipping keys missing from the bibliography (those render as
plain text), assigning identifiers through the shared map; returns the
rendered (key, identifier) usages and the final map. -/
def exportIdsCore (entries : List BibEntry) :
    List String → IdMap → List (String × FieldId) × IdMap
  | [], m => ([], m)
  | k :: ks, m =>
    match resolveKey entries k with
    | none => exportIdsCore entries ks m
    | some e =>
      let p := assignFieldId e m
      let r := exportIdsCore entries ks p.2
      ((k, p.1) :: r.1, r.2)

/-- The (key, identifier) usages rendered by one export call. -/
def exportIds (entries : List BibEntry) (keys : List String) : List (String × FieldId) :=
  (exportIdsCore entries keys []).1

/-- An identifier is numeric. -/
def FieldId.isNum : FieldId → Prop
  | .num _ => True
  | .str _ => False

instance (i : FieldId) : Decidable i.isNum := by
  cases i <;> simp [FieldId.isNum] <;> infer_instance

/-- The per-key identifier discipline claimed of one export: a key
resolving to an entry without provenance carries the key string as its
identifier, and a key resolving to a provenanced entry carries a
numeric identifier. -/
def GoodId (entries : List BibEntry) (k : String) (i : FieldId) : Prop :=
  ∀ e, resolveKey entries k = some e →
    ((e.zoteroKey = none ∧ e.zoteroUri = none) → i = FieldId.str k) ∧
    (e.zoteroUri.isSome = true → ∃ n, i = FieldId.num n)

/-- A sample bibliography store: one entry without provenance and one
provenanced entry. -/
def sampleEntries : List BibEntry :=
  [⟨"smith2020", none, none⟩,
   ⟨"jones2022", some "XXXX1234", some "http://zotero.org/users/0/items/XXXX1234"⟩]

/-- A sample export citing the plain entry twice around the
provenanced one. -/
def sampleKeys : List String := ["smith2020", "jones2022", "smith2020"]

end Citations

namespace Omml

/-- Modelled from the spec: an OMML subtree as seen by the translator
of src/omml.ts (not part of the source snapshot): an element with a
tag and ordered children, or a text leaf. -/
inductive OmmlNode where
  | elem (tag : String) (children : List OmmlNode)
  | textNode (s : String)

/-- A token of the produced LaTeX notation.  Grouping braces and sized
delimiters are their own tokens; all other output is literal text.
The notation string is the concatenation of the rendered tokens. -/
inductive LatexTok where
  | lbrace
  | rbrace
  | leftDelim (d : String)
  | rightDelim (d : String)
  | lit (s : String)
deriving DecidableEq, Repr

/-- The opening-brace character, written via its code point. -/
def lbraceChar : Char := Char.ofNat 123

/-- The closing-brace character, written via its code point. -/
def rbraceChar : Char := Char.ofNat 125

/-- Render one token to text. -/
def renderTok : LatexTok → String
  | .lbrace => String.singleton lbraceChar
  | .rbrace => String.singleton rbraceChar
  | .leftDelim d => "\\left" ++ d
  | .rightDelim d => "\\right" ++ d
  | .lit s => s

/-- Render a token list to the notation string. -/
def renderToks (ts : List LatexTok) : String :=
  String.join (ts.map renderTok)

/-- Modelled from the spec: escaping of one reserved LaTeX character
(escapeLatex of src/omml.ts); unreserved characters pass through. -/
def escapeChar (c : Char) : String :=
  if c = '#' then "\\#"
  else if c = '$' then "\\$"
  else if c = '%' then "\\%"
  else if c = '&' then "\\&"
  else if c = '_' then "\\_"
  else if c = lbraceChar then "\\lbrace "
  else if c = rbraceChar then "\\rbrace "
  else if c = '~' then "\\textasciitilde "
  else if c = '^' then "\\textasciicircum "
  else if c = '\\' then "\\backslash "
  else String.singleton c

/-- Escape a text string for literal use in LaTeX. -/
def escapeLatex (s : String) : String :=
  String.join (s.toList.map escapeChar)

/-- Modelled from the spec: the fixed code-point-to-command table
(unicodeToLatex of src/omml.ts, representative entries); unmapped
characters pass through with reserved characters escaped. -/
def unicodeToLatex (c : Char) : String :=
  if c = 'α' then "\\alpha"
  else if c = 'β' then "\\beta"
  else if c = 'π' then "\\pi"
  else if c = '×' then "\\times"
  else if c = '≤' then "\\leq"
  else if c = '∞' then "\\infty"
  else if c = '∂' then "\\partial"
  else escapeChar c

/-- Map the characters of a math text run through the command table. -/
def mapText (s : String) : String :=
  String.join (s.toList.map unicodeToLatex)

/-- Modelled from the spec: the known function names recognized by the
function-application construct (representative subset). -/
def knownFunctions : List String :=
  ["sin", "cos", "tan", "log", "ln", "exp", "lim", "max", "min"]

/-- Modelled from the spec: property and control tags skipped by the
dispatch (they carry no renderable content of their own). -/
def propertyTags : List String :=
  ["m:rPr", "m:ctrlPr", "m:dPr", "m:naryPr", "m:accPr", "m:fPr",
   "m:radPr", "m:sSupPr", "m:sSubPr", "m:mPr", "m:funcPr", "m:eqArrPr"]

/-- The construct tags with dedicated translation arms. -/
def knownTags : List String :=
  ["m:f", "m:sSup", "m:sSub", "m:sSubSup", "m:rad", "m:nary", "m:d",
   "m:acc", "m:m", "m:func", "m:r", "m:t"]

/-- Whether a tag sits in the math namespace (starts with the m:
marker). -/
def isMathTag (tag : String) : Bool :=
  tag.toList.take 2 = ['m', ':']

/-- The tag without its namespace marker. -/
def dropMarker (tag : String) : String :=
  String.mk (tag.toList.drop 2)

mutual

/-- All text content below one node. -/
def extractText : OmmlNode → String
  | .textNode s => s
  | .elem _ cs => extractTextList cs

/-- All text content below a node list, in order. -/
def extractTextList : List OmmlNode → String
  | [] => ""
  | n :: ns => extractText n ++ extractTextList ns

end

/-- Whether a node is an element with the given tag. -/
def hasTag (t : String) : OmmlNode → Bool
  | .elem tag _ => tag = t
  | .textNode _ => false

/-- Modelled from the spec: the fallback placeholder for unsupported or
malformed constructs (fallbackPlaceholder of src/omml.ts): a visible
roman-text token embedding the element name without its namespace
marker and any recoverable, escaped text content. -/
def fallbackToks (tag : String) (children : List OmmlNode) : List LatexTok :=
  let name := escapeLatex (if isMathTag tag then dropMarker tag else tag)
  let t := escapeLatex (extractTextList children)
  [.lit "\\text", .lbrace,
   .lit ("[UNSUPPORTED: " ++ name ++ "]" ++ (if t = "" then "" else " " ++ t)),
   .rbrace]

/-- Wrap a token list in grouping braces. -/
def group (ts : List LatexTok) : List LatexTok :=
  .lbrace :: ts ++ [.rbrace]

/-- Join token lists with a separator token list. -/
def joinToks (sep : List LatexTok) : List (List LatexTok) → List LatexTok
  | [] => []
  | [t] => t
  | t :: ts => t ++ sep ++ joinToks sep ts

/-- Modelled from the spec: the n-ary glyph-to-command table
(representative entries); an unknown glyph is emitted as operator text
through the escaper, which is the identity on every actual operator
character, so the balanced-output invariant of the spec holds for
arbitrary glyph data as well. -/
def naryCmd (g : String) : String :=
  if g = "∑" then "\\sum"
  else if g = "∏" then "\\prod"
  else if g = "∫" then "\\int"
  else escapeLatex g

/-- Modelled from the spec: the accent mark-to-command table
(representative entries); an unknown mark has no command. -/
def accCmd (g : String) : Option String :=
  if g = "ˆ" then some "\\hat"
  else if g = "¯" then some "\\bar"
  else if g = "˙" then some "\\dot"
  else if g = "~" then some "\\tilde"
  else if g = "→" then some "\\vec"
  else none

/-- Text of a math run, skipping its property child. -/
def runText (children : List OmmlNode) : String :=
  extractTextList (children.filter (fun c => !(hasTag "m:rPr" c)))

/-- The operand translations of a delimiter group or matrix row: the
translations of exactly the m:e children, in order. -/
def delimOps (children : List OmmlNode) (subs : List (List LatexTok)) :
    List (List LatexTok) :=
  (children.zip subs).filterMap fun p =>
    match p.1 with
    | .elem "m:e" _ => some p.2
    | _ => none

/-- The row translations of a matrix: for each m:mr child, its m:e
cell translations joined by the cell separator. -/
def matrixRowsOf (children : List OmmlNode) (grands : List (List (List LatexTok))) :
    List (List LatexTok) :=
  (children.zip grands).filterMap fun p =>
    match p.1 with
    | .elem "m:mr" cells => some (joinToks [.lit "&"] (delimOps cells p.2))
    | _ => none

/-- Modelled from the spec: the per-element translation step of the
recursive-descent OMML-to-LaTeX translator (src/omml.ts is not part of
the source snapshot).  It receives the element tag, its children, the
translations of each child (subs) and of each grandchild row (grands),
and dispatches on the tag; a recognized construct with the wrong child
shape, and any unrecognized math element, degrade to the visible
fallback token; property tags and foreign tags contribute nothing. -/
def renderElem (tag : String) (children : List OmmlNode)
    (subs : List (List LatexTok)) (grands : List (List (List LatexTok))) : List LatexTok :=
  if tag = "m:f" then
    match children, subs with
    | [.elem "m:num" _, .elem "m:den" _], [tn, td] =>
      [.lit "\\frac"] ++ group tn ++ group td
    | _, _ => fallbackToks tag children
  else if tag = "m:sSup" then
    match children, subs with
    | [.elem "m:e" _, .elem "m:sup" _], [tb, ts] => group tb ++ [.lit "^"] ++ group ts
    | _, _ => fallbackToks tag children
  else if tag = "m:sSub" then
    match children, subs with
    | [.elem "m:e" _, .elem "m:sub" _], [tb, ts] => group tb ++ [.lit "_"] ++ group ts
    | _, _ => fallbackToks tag children
  else if tag = "m:sSubSup" then
    match children, subs with
    | [.elem "m:e" _, .elem "m:sub" _, .elem "m:sup" _], [tb, t1, t2] =>
      group tb ++ [.lit "_"] ++ group t1 ++ [.lit "^"] ++ group t2
    | _, _ => fallbackToks tag children
  else if tag = "m:rad" then
    match children, subs with
    | [.elem "m:deg" _, .elem "m:e" _], [td, te] =>
      [.lit "\\sqrt["] ++ td ++ [.lit "]"] ++ group te
    | [.elem "m:e" _], [te] => [.lit "\\sqrt"] ++ group te
    | _, _ => fallbackToks tag children
  else if tag = "m:nary" then
    match children, subs with
    | [.elem "m:naryPr" pr, .elem "m:sub" _, .elem "m:sup" _, .elem "m:e" _],
      [_, tsb, tsp, te] =>
      [.lit (naryCmd (extractTextList pr)), .lit "_"] ++ group tsb ++
        [.lit "^"] ++ group tsp ++ group te
    | _, _ => fallbackToks tag children
  else if tag = "m:d" then
    match delimOps children subs with
    | [] => fallbackToks tag children
    | op :: ops =>
      [.leftDelim "("] ++ joinToks [.lit ","] (op :: ops) ++ [.rightDelim ")"]
  else if tag = "m:acc" then
    match children, subs with
    | [.elem "m:accPr" pr, .elem "m:e" _], [_, te] =>
      match accCmd (extractTextList pr) with
      | some cmd => [.lit cmd] ++ group te
      | none => fallbackToks tag children
    | _, _ => fallbackToks tag children
  else if tag = "m:m" then
    match matrixRowsOf children grands with
    | [] => fallbackToks tag children
    | row :: rows =>
      [.lit "\\begin\x7bmatrix\x7d"] ++ joinToks [.lit "\\\\"] (row :: rows) ++
        [.lit "\\end\x7bmatrix\x7d"]
  else if tag = "m:func" then
    match children, subs with
    | [.elem "m:fName" fn, .elem "m:e" _], [_, te] =>
      if extractTextList fn ∈ knownFunctions then
        [.lit ("\\" ++ extractTextList fn)] ++ group te
      else
        [.lit "\\operatorname"] ++ group [.lit (escapeLatex (extractTextList fn))] ++ group te
    | _, _ => fallbackToks tag children
  else if tag = "m:r" then
    if children.any (hasTag "m:t") then
      if (runText children).length = 1 then [.lit (mapText (runText children))]
      else if runText children ∈ knownFunctions then [.lit ("\\" ++ runText children)]
      else [.lit "\\mathrm"] ++ group [.lit (mapText (runText children))]
    else fallbackToks tag children
  else if tag = "m:t" then
    [.lit (mapText (extractTextList children))]
  else if tag ∈ propertyTags then []
  else if isMathTag tag then fallbackToks tag children
  else []

mutual

/-- Modelled from the spec: the recursive-descent OMML-to-LaTeX
translator: a text leaf maps its text; an element is rendered from its
tag, children, and the translated children and grandchildren. -/
def translateNode : OmmlNode → List LatexTok
  | .textNode s => [.lit (mapText s)]
  | .elem tag children => renderElem tag children (childToks children) (grandToks children)

/-- The translation of each child: for an element child, the
translation of its own children; for a text leaf, its mapped text. -/
def childToks : List OmmlNode → List (List LatexTok)
  | [] => []
  | .elem _ cs :: rest => ommlToks cs :: childToks rest
  | .textNode s :: rest => [.lit (mapText s)] :: childToks rest

/-- The per-child translations one level deeper, used by the matrix
construct to reach its row cells. -/
def grandToks : List OmmlNode → List (List (List LatexTok))
  | [] => []
  | .elem _ cs :: rest => childToks cs :: grandToks rest
  | .textNode _ :: rest => [] :: grandToks rest

/-- Modelled from the spec: the translator entry point ommlToLatex of
src/omml.ts, concatenating the translations of the children of a math
element. -/
def ommlToks : List OmmlNode → List LatexTok
  | [] => []
  | n :: ns => translateNode n ++ ommlToks ns

end

/-- The notation string returned for a math subtree. -/
def ommlToLatex (children : List OmmlNode) : String :=
  renderToks (ommlToks children)

/-- Scan grouping-brace tokens left to right carrying the nesting
depth; closing at depth zero fails.  A token list has every opening
grouping brace matched by a closer exactly when the scan of the whole
list from depth zero ends at depth zero. -/
def braceScan : List LatexTok → Nat → Option Nat
  | [], d => some d
  | t :: ts, d =>
    match t with
    | .lbrace => braceScan ts (d + 1)
    | .rbrace => if d = 0 then none else braceScan ts (d - 1)
    | _ => braceScan ts d

/-- Scan sized-delimiter tokens left to right carrying the nesting
depth; a closer at depth zero fails. -/
def delimScan : List LatexTok → Nat → Option Nat
  | [], d => some d
  | t :: ts, d =>
    match t with
    | .leftDelim _ => delimScan ts (d + 1)
    | .rightDelim _ => if d = 0 then none else delimScan ts (d - 1)
    | _ => delimScan ts d

/-- A token list is neutral when scanning it from any depth returns
that depth unchanged for both grouping braces and sized delimiters; in
particular, from depth zero both scans succeed and end balanced. -/
def tokNeutral (ts : List LatexTok) : Prop :=
  (∀ d, braceScan ts d = some d) ∧ (∀ d, delimScan ts d = some d)

/-- Scan the characters of the notation string for grouping braces,
carrying the nesting depth; a closing brace at depth zero fails.  The
string has every opening brace matched exactly when the scan of the
whole string from depth zero ends at depth zero. -/
def charBraceScan : List Char → Nat → Option Nat
  | [], d => some d
  | c :: cs, d =>
    if c = lbraceChar then charBraceScan cs (d + 1)
    else if c = rbraceChar then
      (if d = 0 then none else charBraceScan cs (d - 1))
    else charBraceScan cs d

/-- The letters of the sized-delimiter opening command. -/
def leftWord : List Char := ['l', 'e', 'f', 't']

/-- The letters of the sized-delimiter closing command. -/
def rightWord : List Char := ['r', 'i', 'g', 'h', 't']

/-- Effect of a finished control word on the sized-delimiter depth:
the opening word pushes, the closing word pops and fails at depth
zero, every other word is neutral. -/
def flushRun (run : List Char) (d : Nat) : Option Nat :=
  if run = leftWord then some (d + 1)
  else if run = rightWord then (if d = 0 then none else some (d - 1))
  else some d

/-- The one-pass notation lexer for sized delimiters: a backslash
starts a control sequence, letters extend the pending control word, a
non-letter finishes it (a lone backslash before a non-letter is a
control symbol and consumes it); finished words act through flushRun.
The scan returns the pending word, if any, and the depth. -/
def delimRun : List Char → Option (List Char) → Nat → Option (Option (List Char) × Nat)
  | [], p, d => some (p, d)
  | c :: cs, p, d =>
    match p with
    | none =>
      if c = '\\' then delimRun cs (some []) d
      else delimRun cs none d
    | some run =>
      if c.isAlpha then delimRun cs (some (run ++ [c])) d
      else
        match flushRun run d with
        | none => none
        | some d2 =>
          if run = [] then delimRun cs none d2
          else if c = '\\' then delimRun cs (some []) d2
          else delimRun cs none d2

/-- The delimiter lexer run to the end of input, flushing a pending
control word. -/
def delimFlush (cs : List Char) (p : Option (List Char)) (d : Nat) : Option Nat :=
  match delimRun cs p d with
  | some (none, d2) => some d2
  | some (some run, d2) => flushRun run d2
  | none => none

/-- String-level brace balance scan of a notation string. -/
def braceStr (s : String) (d : Nat) : Option Nat :=
  charBraceScan s.toList d

/-- String-level sized-delimiter matching scan of a notation string. -/
def delimStr (s : String) (d : Nat) : Option Nat :=
  delimFlush s.toList none d

/-- Whether a letter run begins one of the two sized-delimiter control
words. -/
def lrStart (run : List Char) : Bool :=
  leftWord.take run.length = run ∨ rightWord.take run.length = run

/-- A literal piece of the notation string is harmless for both scans:
its characters are brace-neutral from every depth, and the delimiter
lexer crosses it without depth change, ending either outside a control
word or inside a word that can no longer become a delimiter command. -/
def litStrOK (s : String) : Prop :=
  (∀ d, charBraceScan s.toList d = some d) ∧
  (∀ d, delimRun s.toList none d = some (none, d) ∨
    ∃ run, delimRun s.toList none d = some (some run, d) ∧
      run ≠ [] ∧ lrStart run = false)

/-- Tokens whose renderings keep the string scans aligned with the
token scans: literals are harmless pieces and the sized delimiters
carry the parenthesis payloads the translator emits. -/
def safeTok : LatexTok → Prop
  | .lit s => litStrOK s
  | .leftDelim s => s = "("
  | .rightDelim s => s = ")"
  | .lbrace => True
  | .rbrace => True

/-- Modelled from the spec: whether the children of a recognized
construct carry the required child elements of the design's
translation table (the m:f num/den pair, the script bases and
arguments, the radical shapes, the four n-ary parts, at least one
delimiter operand or matrix row, a supported accent mark, the function
name/argument pair, and a text child for a run). -/
def wellShapedB : String → List OmmlNode → Bool
  | "m:f", cs =>
    match cs with
    | [.elem "m:num" _, .elem "m:den" _] => true
    | _ => false
  | "m:sSup", cs =>
    match cs with
    | [.elem "m:e" _, .elem "m:sup" _] => true
    | _ => false
  | "m:sSub", cs =>
    match cs with
    | [.elem "m:e" _, .elem "m:sub" _] => true
    | _ => false
  | "m:sSubSup", cs =>
    match cs with
    | [.elem "m:e" _, .elem "m:sub" _, .elem "m:sup" _] => true
    | _ => false
  | "m:rad", cs =>
    match cs with
    | [.elem "m:deg" _, .elem "m:e" _] => true
    | [.elem "m:e" _] => true
    | _ => false
  | "m:nary", cs =>
    match cs with
    | [.elem "m:naryPr" _, .elem "m:sub" _, .elem "m:sup" _, .elem "m:e" _] => true
    | _ => false
  | "m:d", cs => cs.any (hasTag "m:e")
  | "m:acc", cs =>
    match cs with
    | [.elem "m:accPr" pr, .elem "m:e" _] => (accCmd (extractTextList pr)).isSome
    | _ => false
  | "m:m", cs => cs.any (hasTag "m:mr")
  | "m:func", cs =>
    match cs with
    | [.elem "m:fName" _, .elem "m:e" _] => true
    | _ => false
  | "m:r", cs => cs.any (hasTag "m:t")
  | _, _ => true

/-- A recognized construct whose children satisfy the design's
required-children table. -/
def wellShaped (tag : String) (cs : List OmmlNode) : Prop :=
  wellShapedB tag cs = true

instance (tag : String) (cs : List OmmlNode) : Decidable (wellShaped tag cs) :=
  inferInstanceAs (Decidable (wellShapedB tag cs = true))

/-- A math-namespace tag with no translation arm and no property-tag
role: the translator degrades it to the fallback token. -/
def unknownMathTag (tag : String) : Prop :=
  isMathTag tag = true ∧ tag ∉ knownTags ∧ tag ∉ propertyTags

instance (tag : String) : Decidable (unknownMathTag tag) :=
  inferInstanceAs (Decidable (_ ∧ _ ∧ _))

/-- The unknown-construct example: tag weirdConstruct holding the
literal text x. -/
def weirdNode : OmmlNode :=
  .elem "m:weirdConstruct" [.elem "m:t" [.textNode "x"]]

/-- A well-formed math run following the unknown construct. -/
def goodNode : OmmlNode :=
  .elem "m:r" [.elem "m:t" [.textNode "y"]]

end Omml

namespace MarkupBuilder

/-- Modelled from the spec: the content items relevant to the
delimiter and blank-line rules of the markup builder — plain
paragraph content and math items with their display flag. -/
inductive ContentItem where
  | para (text : String)
  | math (latex : String) (display : Bool)
deriving DecidableEq, Repr

/-- One chunk of the builder output array: a blank-line separator, a
text chunk, an inline math chunk, or a display math block. -/
inductive Chunk where
  | sep
  | textC (s : String)
  | inlineMath (latex : String)
  | displayMath (latex : String)
deriving DecidableEq, Repr

/-- Whether a chunk is a display math block. -/
def Chunk.isDisplay : Chunk → Bool
  | .displayMath _ => true
  | _ => false

/-- Whether a chunk is the blank-line separator. -/
def Chunk.isSep : Chunk → Bool
  | .sep => true
  | _ => false

/-- Whether the output so far ends with a blank-line separator. -/
def endsWithSep (out : List Chunk) : Bool :=
  match out.getLast? with
  | some c => c.isSep
  | none => false

/-- Whether the output so far ends with a display math block. -/
def endsWithDisplay (out : List Chunk) : Bool :=
  match out.getLast? with
  | some c => c.isDisplay
  | none => false

/-- Modelled from the spec: the chunk-producing loop of buildMarkdown
(src/converter.ts is not part of the source snapshot).  A display math
item forces a blank-line separator before it unless the output is
empty or already ends blank; content following a display block forces
a blank-line separator after it; inline math is emitted with no
separator of its own; plain content is separated from earlier content
by a blank line. -/
def buildChunks : List ContentItem → List Chunk → List Chunk
  | [], out => out
  | .math l true :: rest, out =>
    let out1 := if out.isEmpty || endsWithSep out then out else out ++ [.sep]
    buildChunks rest (out1 ++ [.displayMath l])
  | .math l false :: rest, out =>
    let out1 := if endsWithDisplay out then out ++ [.sep] else out
    buildChunks rest (out1 ++ [.inlineMath l])
  | .para s :: rest, out =>
    let out1 := if out.isEmpty then out else out ++ [.sep]
    buildChunks rest (out1 ++ [.textC s])

/-- Render one chunk: inline math carries single-character delimiters,
display math carries double-character delimiters on their own lines,
the separator is a blank line. -/
def renderChunk : Chunk → String
  | .sep => "\n\n"
  | .textC s => s
  | .inlineMath l => "$" ++ l ++ "$"
  | .displayMath l => "$$\n" ++ l ++ "\n$$"

/-- The rendered markup of a content-item sequence. -/
def buildMarkdown (items : List ContentItem) : String :=
  String.join ((buildChunks items []).map renderChunk)

/-- Adjacent-chunk discipline around display math blocks: whenever a
display block is adjacent to another chunk, that neighbour is the
blank-line separator. -/
def displaySeparated (out : List Chunk) : Prop :=
  List.Chain' (fun a b =>
    (a.isDisplay = true → b = Chunk.sep) ∧ (b.isDisplay = true → a = Chunk.sep)) out

end MarkupBuilder

namespace Citations

/-- Unfolding equation: assignment when the key is already bound. -/
theorem assignFieldId_hit {e : BibEntry} {m : IdMap} {i : FieldId}
    (h : lookupId m e.key = some i) : assignFieldId e m = (i, m) := by
  rw [assignFieldId, h]

/-- Unfolding equation: assignment of a fresh key. -/
theorem assignFieldId_miss {e : BibEntry} {m : IdMap}
    (h : lookupId m e.key = none) :
    assignFieldId e m =
      (if e.zoteroUri.isSome then FieldId.num (m.length + 1) else FieldId.str e.key,
       m ++ [(e.key,
         if e.zoteroUri.isSome then FieldId.num (m.length + 1) else FieldId.str e.key)]) := by
  rw [assignFieldId, h]

/-- Unfolding equation: an export step on an unresolved key. -/
theorem exportIdsCore_cons_none {entries : List BibEntry} {k : String} {ks : List String}
    {m : IdMap} (h : resolveKey entries k = none) :
    exportIdsCore entries (k :: ks) m = exportIdsCore entries ks m := by
  rw [exportIdsCore, h]

/-- Unfolding equation: an export step on a resolved key. -/
theorem exportIdsCore_cons_some {entries : List BibEntry} {k : String} {ks : List String}
    {m : IdMap} {e : BibEntry} (h : resolveKey entries k = some e) :
    exportIdsCore entries (k :: ks) m =
      ((k, (assignFieldId e m).1) :: (exportIdsCore entries ks (assignFieldId e m).2).1,
       (exportIdsCore entries ks (assignFieldId e m).2).2) := by
  rw [exportIdsCore, h]

/-- A binding found in the map survives appending further bindings. -/
theorem lookupId_append_some {m m2 : IdMap} {k : String} {i : FieldId}
    (h : lookupId m k = some i) : lookupId (m ++ m2) k = some i := by
  unfold lookupId at h ⊢
  rw [List.find?_append]
  cases hf : m.find? (fun e => e.1 = k) with
  | none => rw [hf] at h; simp at h
  | some b => rw [hf] at h; simpa using h

/-- A key absent from the map is found in a freshly appended binding. -/
theorem lookupId_append_none {m : IdMap} {k : String} (h : lookupId m k = none) (i : FieldId) :
    lookupId (m ++ [(k, i)]) k = some i := by
  unfold lookupId at h ⊢
  rw [List.find?_append]
  cases hf : m.find? (fun e => e.1 = k) with
  | some b => rw [hf] at h; simp at h
  | none => simp

/-- Identifier assignment preserves existing bindings. -/
theorem assign_preserves {e : BibEntry} {m : IdMap} {k : String} {i : FieldId}
    (h : lookupId m k = some i) : lookupId (assignFieldId e m).2 k = some i := by
  cases hl : lookupId m e.key with
  | some j => rw [assignFieldId_hit hl]; exact h
  | none => rw [assignFieldId_miss hl]; exact lookupId_append_some h

/-- After assignment the processed key is bound to the returned
identifier. -/
theorem assign_self (e : BibEntry) (m : IdMap) :
    lookupId (assignFieldId e m).2 e.key = some (assignFieldId e m).1 := by
  cases hl : lookupId m e.key with
  | some j => rw [assignFieldId_hit hl]; exact hl
  | none => rw [assignFieldId_miss hl]; exact lookupId_append_none hl _

/-- A resolved entry carries the requested key. -/
theorem resolve_key_eq {entries : List BibEntry} {k : String} {e : BibEntry}
    (h : resolveKey entries k = some e) : e.key = k := by
  have := List.find?_some h
  simpa using this

/-- A binding looked up in a disciplined map is disciplined. -/
theorem lookup_good {entries : List BibEntry} {m : IdMap} {k : String} {i : FieldId}
    (hm : ∀ p ∈ m, GoodId entries p.1 p.2) (h : lookupId m k = some i) :
    GoodId entries k i := by
  unfold lookupId at h
  cases hf : m.find? (fun e => e.1 = k) with
  | none => rw [hf] at h; simp at h
  | some b =>
    rw [hf] at h
    simp only [Option.map_some'] at h
    have hb : b ∈ m := List.mem_of_find?_eq_some hf
    have hk : b.1 = k := by simpa using List.find?_some hf
    have hgood := hm b hb
    rw [hk] at hgood
    rw [← Option.some.inj h]
    exact hgood

/-- Assignment returns a disciplined identifier and keeps the map
disciplined. -/
theorem assign_good {entries : List BibEntry} {e : BibEntry} {m : IdMap} {k : String}
    (hm : ∀ p ∈ m, GoodId entries p.1 p.2) (hk : resolveKey entries k = some e) :
    GoodId entries k (assignFieldId e m).1 ∧
    (∀ p ∈ (assignFieldId e m).2, GoodId entries p.1 p.2) := by
  have hek : e.key = k := resolve_key_eq hk
  cases hl : lookupId m e.key with
  | some j =>
    rw [assignFieldId_hit hl]
    refine ⟨?_, hm⟩
    have := lookup_good hm hl
    rwa [hek] at this
  | none =>
    rw [assignFieldId_miss hl]
    have hgood : GoodId entries k
        (if e.zoteroUri.isSome then FieldId.num (m.length + 1) else FieldId.str e.key) := by
      intro e2 hres2
      rw [hk] at hres2
      have he2 : e2 = e := (Option.some.inj hres2).symm
      subst he2
      cases hu : e2.zoteroUri with
      | some u => simp [hu, hek]
      | none => simp [hu, hek]
    refine ⟨hgood, ?_⟩
    intro p hp
    rcases List.mem_append.mp hp with hold | hnew
    · exact hm p hold
    · rcases List.mem_singleton.mp hnew with rfl
      simpa [hek] using hgood

/-- Every usage an export emits is disciplined, given a disciplined
starting map. -/
theorem core_good (entries : List BibEntry) :
    ∀ (ks : List String) (m : IdMap), (∀ p ∈ m, GoodId entries p.1 p.2) →
      ∀ p ∈ (exportIdsCore entries ks m).1, GoodId entries p.1 p.2 := by
  intro ks
  induction ks with
  | nil => intro m _ p hp; simp [exportIdsCore] at hp
  | cons k ks ih =>
    intro m hm p hp
    cases hres : resolveKey entries k with
    | none =>
      rw [exportIdsCore_cons_none hres] at hp
      exact ih m hm p hp
    | some e =>
      rw [exportIdsCore_cons_some hres] at hp
      simp only [List.mem_cons] at hp
      rcases hp with rfl | hp
      · exact (assign_good hm hres).1
      · exact ih _ (assign_good hm hres).2 p hp

/-- Existing bindings survive a whole export. -/
theorem core_preserves (entries : List BibEntry) :
    ∀ (ks : List String) (m : IdMap) (k : String) (i : FieldId),
      lookupId m k = some i → lookupId (exportIdsCore entries ks m).2 k = some i := by
  intro ks
  induction ks with
  | nil => intro m k i h; simpa [exportIdsCore] using h
  | cons k2 ks ih =>
    intro m k i h
    cases hres : resolveKey entries k2 with
    | none => rw [exportIdsCore_cons_none hres]; exact ih m k i h
    | some e => rw [exportIdsCore_cons_some hres]; exact ih _ k i (assign_preserves h)

/-- Every emitted usage is bound in the final map to its identifier. -/
theorem core_out_lookup (entries : List BibEntry) :
    ∀ (ks : List String) (m : IdMap),
      ∀ p ∈ (exportIdsCore entries ks m).1,
        lookupId (exportIdsCore entries ks m).2 p.1 = some p.2 := by
  intro ks
  induction ks with
  | nil => intro m p hp; simp [exportIdsCore] at hp
  | cons k ks ih =>
    intro m p hp
    cases hres : resolveKey entries k with
    | none =>
      rw [exportIdsCore_cons_none hres] at hp ⊢
      exact ih m p hp
    | some e =>
      rw [exportIdsCore_cons_some hres] at hp ⊢
      simp only [List.mem_cons] at hp
      rcases hp with rfl | hp
      · have hself := assign_self e m
        rw [resolve_key_eq hres] at hself
        exact core_preserves entries ks _ _ _ hself
      · exact ih _ p hp

/-- C1: within one export, every usage whose entry lacks both
provenance fields carries the citation key string as its identifier,
every usage whose entry carries the external URI has a numeric
identifier, and repeats of the same citation key always carry the same
identifier. -/
theorem c1_identifier_assignment (entries : List BibEntry) (keys : List String) :
    (∀ p ∈ exportIds entries keys, ∀ e, resolveKey entries p.1 = some e →
      ((e.zoteroKey = none ∧ e.zoteroUri = none) → p.2 = FieldId.str p.1) ∧
      (e.zoteroUri.isSome = true → ∃ n, p.2 = FieldId.num n)) ∧
    (∀ p ∈ exportIds entries keys, ∀ q ∈ exportIds entries keys,
      p.1 = q.1 → p.2 = q.2) := by
  constructor
  · intro p hp
    exact core_good entries keys [] (by simp) p hp
  · intro p hp q hq hk
    have h1 := core_out_lookup entries keys [] p hp
    have h2 := core_out_lookup entries keys [] q hq
    rw [hk] at h1
    rw [h1] at h2
    exact Option.some.inj h2

/-- Witness for C1 on the sample store and key sequence: the
no-provenance entry receives its key string, and its repeat receives
the same identifier. -/
theorem c1_witness :
    (("smith2020", FieldId.str "smith2020") ∈ exportIds sampleEntries sampleKeys ∧
     resolveKey sampleEntries "smith2020" =
       some ⟨"smith2020", none, none⟩) ∧
    ("smith2020", FieldId.str "smith2020").2 = FieldId.str "smith2020" ∧
    (∀ q ∈ exportIds sampleEntries sampleKeys,
      ("smith2020", FieldId.str "smith2020").1 = q.1 →
      ("smith2020", FieldId.str "smith2020").2 = q.2) := by
  refine ⟨⟨by decide, by decide⟩, ?_, ?_⟩
  · exact ((c1_identifier_assignment sampleEntries sampleKeys).1
      ("smith2020", FieldId.str "smith2020") (by decide)
      ⟨"smith2020", none, none⟩ (by decide)).1 (by decide)
  · intro q hq hk
    exact (c1_identifier_assignment sampleEntries sampleKeys).2
      ("smith2020", FieldId.str "smith2020") (by decide) q hq hk

end Citations

namespace CodeRegions

/-- The binary search answers true only at a covering region. -/
theorem bsearchGo_sound (regions : List CodeRegion) (offset : Nat) :
    ∀ (fuel lo : Nat) (hi : Int), bsearchGo regions offset fuel lo hi = true →
      ∃ r ∈ regions, covers r offset := by
  intro fuel
  induction fuel with
  | zero => intro lo hi h; simp [bsearchGo] at h
  | succ n ih =>
    intro lo hi h
    rw [bsearchGo] at h
    split at h
    · split at h
      · next r hget =>
          split at h
          · exact ih _ _ h
          · split at h
            · exact ih _ _ h
            · next h1 h2 =>
                exact ⟨r, List.get?_mem hget, Nat.le_of_not_lt h1, Nat.lt_of_not_le h2⟩
      · exact absurd h (by simp)
    · exact absurd h (by simp)

/-- Under sortedness, pairwise non-overlap, and well-formed regions,
the binary search finds any covering region inside its bounds. -/
theorem bsearchGo_complete (regions : List CodeRegion) (offset : Nat)
    (hsort : sortedByStart regions) (hdis : pairwiseNonOverlapping regions)
    (hwf : ∀ r ∈ regions, r.start < r.stop) :
    ∀ (fuel lo : Nat) (hi : Int),
      hi < (regions.length : Int) →
      (hi - lo + 1 : Int) ≤ fuel →
      (∃ (k : Nat) (r : CodeRegion), lo ≤ k ∧ (k : Int) ≤ hi ∧
        regions.get? k = some r ∧ covers r offset) →
      bsearchGo regions offset fuel lo hi = true := by
  intro fuel
  induction fuel with
  | zero =>
    intro lo hi _ hfuel hex
    rcases hex with ⟨k, r, hk1, hk2, _, _⟩
    have : (lo : Int) ≤ (k : Int) := by exact_mod_cast hk1
    omega
  | succ n ih =>
    intro lo hi hlen hfuel hex
    rcases hex with ⟨k, r, hk1, hk2, hget, hcov⟩
    have hkInt : (lo : Int) ≤ (k : Int) := by exact_mod_cast hk1
    have hcond : (lo : Int) ≤ hi := le_trans hkInt hk2
    have hhi0 : 0 ≤ hi := le_trans (by positivity) hcond
    have hhiN : hi.toNat < regions.length := by omega
    have hloN : lo ≤ hi.toNat := by omega
    have hmid1 : lo ≤ (lo + hi.toNat) / 2 := by omega
    have hmid2 : (lo + hi.toNat) / 2 ≤ hi.toNat := by omega
    have hmidlt : (lo + hi.toNat) / 2 < regions.length := lt_of_le_of_lt hmid2 hhiN
    have hkl : k < regions.length := by
      by_contra hc
      rw [List.get?_eq_none.mpr (Nat.le_of_not_lt hc)] at hget
      exact Option.noConfusion hget
    rw [bsearchGo, if_pos hcond]
    split
    · next rm hrmget =>
        have hrm : regions.get ⟨(lo + hi.toNat) / 2, hmidlt⟩ = rm := by
          have := List.get?_eq_get hmidlt
          rw [hrmget] at this
          exact (Option.some.inj this).symm
        have hrmmem : rm ∈ regions := List.get?_mem hrmget
        by_cases h1 : offset < rm.start
        · rw [if_pos h1]
          apply ih lo (((lo + hi.toNat) / 2 : Nat) - 1) (by omega) (by omega)
          have hkmid : k < (lo + hi.toNat) / 2 := by
            by_contra hc
            have hkm : (lo + hi.toNat) / 2 ≤ k := Nat.le_of_not_lt hc
            rcases Nat.eq_or_lt_of_le hkm with he | hlt
            · rw [List.get?_eq_get hkl] at hget
              have hreq : rm = r := by
                rw [← hrm, ← Option.some.inj hget]
                congr 1
                exact Fin.ext he
              rw [hreq] at h1
              exact absurd hcov.1 (Nat.not_le_of_lt h1)
            · have hle := (List.pairwise_iff_get.mp hsort)
                ⟨(lo + hi.toNat) / 2, hmidlt⟩ ⟨k, hkl⟩ hlt
              rw [hrm] at hle
              rw [List.get?_eq_get hkl] at hget
              rw [Option.some.inj hget] at hle
              exact absurd (le_trans hle hcov.1) (Nat.not_le_of_lt h1)
          exact ⟨k, r, hk1, by omega, hget, hcov⟩
        · rw [if_neg h1]
          by_cases h2 : rm.stop ≤ offset
          · rw [if_pos h2]
            apply ih ((lo + hi.toNat) / 2 + 1) hi hlen (by omega)
            have hkmid : (lo + hi.toNat) / 2 < k := by
              by_contra hc
              have hkm : k ≤ (lo + hi.toNat) / 2 := Nat.le_of_not_lt hc
              rcases Nat.eq_or_lt_of_le hkm with he | hlt
              · rw [List.get?_eq_get hkl] at hget
                have hreq : rm = r := by
                  rw [← hrm, ← Option.some.inj hget]
                  congr 1
                  exact Fin.ext he.symm
                rw [hreq] at h2
                exact absurd hcov.2 (Nat.not_lt_of_le h2)
              · have hle := (List.pairwise_iff_get.mp hsort)
                  ⟨k, hkl⟩ ⟨(lo + hi.toNat) / 2, hmidlt⟩ hlt
                have hno := (List.pairwise_iff_get.mp hdis)
                  ⟨k, hkl⟩ ⟨(lo + hi.toNat) / 2, hmidlt⟩ hlt
                rw [hrm] at hle hno
                rw [List.get?_eq_get hkl] at hget
                rw [Option.some.inj hget] at hle hno
                have hrmwf : rm.start < rm.stop := hwf rm hrmmem
                have hstop : r.stop ≤ rm.start := by
                  by_contra hc2
                  apply hno
                  unfold regionsOverlap
                  rw [Nat.max_eq_right hle]
                  exact lt_min (Nat.lt_of_not_le hc2) hrmwf
                have : offset < rm.start := lt_of_lt_of_le hcov.2 hstop
                omega
            exact ⟨k, r, by omega, hk2, hget, hcov⟩
          · rw [if_neg h2]
    · next hnone =>
        rw [List.get?_eq_none] at hnone
        omega

/-- A takeWhile result is no longer than the list. -/
theorem takeWhile_length_le {α : Type} (p : α → Bool) (l : List α) :
    (l.takeWhile p).length ≤ l.length := by
  calc (l.takeWhile p).length
      ≤ (l.takeWhile p).length + (l.dropWhile p).length := Nat.le_add_right _ _
    _ = l.length := by rw [← List.length_append, List.takeWhile_append_dropWhile]

/-- A character run starting at a present character is nonempty. -/
theorem countRun_pos {text : List Char} {j : Nat} {c : Char}
    (h : text.get? j = some c) : 1 ≤ countRun text j c := by
  have hj : j < text.length := by
    by_contra hc
    rw [List.get?_eq_none.mpr (Nat.le_of_not_lt hc)] at h
    exact Option.noConfusion h
  have hdrop : text.drop j = c :: text.drop (j + 1) := by
    rw [List.drop_eq_get_cons hj]
    congr 1
    have hg := List.get?_eq_get hj
    rw [h] at hg
    exact (Option.some.inj hg).symm
  unfold countRun
  rw [hdrop]
  simp [List.takeWhile]

/-- A character run fits inside the text. -/
theorem countRun_le (text : List Char) (j : Nat) (c : Char) :
    j + countRun text j c ≤ text.length ∨ text.length ≤ j := by
  rcases Nat.lt_or_ge j text.length with hj | hj
  · left
    have h1 : countRun text j c ≤ (text.drop j).length := takeWhile_length_le _ _
    rw [List.length_drop] at h1
    omega
  · right; exact hj

/-- The early-exit query reports only covering regions. -/
theorem findContainingRegion_some :
    ∀ (rs : List CodeRegion) (pos : Nat) (r : CodeRegion),
      findContainingRegion rs pos = some r → r ∈ rs ∧ r.start ≤ pos ∧ pos < r.stop := by
  intro rs
  induction rs with
  | nil => intro pos r h; simp [findContainingRegion] at h
  | cons a rs ih =>
    intro pos r h
    rw [findContainingRegion] at h
    split at h
    · exact absurd h (by simp)
    · split at h
      · next h1 h2 =>
          rcases Option.some.inj h with rfl
          exact ⟨List.mem_cons_self a rs, Nat.le_of_not_lt h1, h2⟩
      · rcases ih pos r h with ⟨hm, hc⟩
        exact ⟨List.mem_cons_of_mem a hm, hc⟩

/-- The linear query reports only covering regions. -/
theorem findInsideFence_some {rs : List CodeRegion} {pos : Nat} {r : CodeRegion}
    (h : findInsideFence rs pos = some r) : r ∈ rs ∧ r.start ≤ pos ∧ pos < r.stop := by
  unfold findInsideFence at h
  refine ⟨List.mem_of_find?_eq_some h, ?_⟩
  have := List.find?_some h
  simpa using this

/-- Line decomposition: every produced line lies inside the text, the
start offsets grow, and each line is bounded by the final offset. -/
theorem linesAux_props :
    ∀ (cs : List Char) (lineStart : Nat) (acc : List Char) (pos : Nat),
      pos = lineStart + acc.length →
      (∀ e ∈ linesAux cs lineStart acc pos,
        lineStart ≤ e.1 ∧ e.1 + e.2.length ≤ pos + cs.length) ∧
      List.Pairwise (fun a b => a.1 + a.2.length < b.1) (linesAux cs lineStart acc pos) := by
  intro cs
  induction cs with
  | nil =>
    intro lineStart acc pos hpos
    constructor
    · intro e he
      rw [linesAux] at he
      rcases List.mem_singleton.mp he with rfl
      simp [hpos]
    · rw [linesAux]
      exact List.pairwise_singleton _ _
  | cons c cs ih =>
    intro lineStart acc pos hpos
    rw [linesAux]
    by_cases hc : c = '
'
    · rw [if_pos hc]
      have ihh := ih (pos + 1) [] (pos + 1) (by simp)
      constructor
      · intro e he
        rcases List.mem_cons.mp he with rfl | he2
        · refine ⟨Nat.le_refl _, ?_⟩
          simp [hpos]
        · rcases (ihh.1 e he2) with ⟨h1, h2⟩
          constructor
          · omega
          · simp at h2 ⊢
            omega
      · refine List.Pairwise.cons ?_ ihh.2
        intro b hb
        have := (ihh.1 b hb).1
        simp [hpos]
        omega
    · rw [if_neg hc]
      have ihh := ih lineStart (c :: acc) (pos + 1) (by simp [hpos]; omega)
      constructor
      · intro e he
        rcases ihh.1 e he with ⟨h1, h2⟩
        constructor
        · exact h1
        · simp at h2 ⊢
          omega
      · exact ihh.2

/-- A fence line is at least three characters long. -/
theorem fenceInfo_len {line : List Char} {c : Char} {cnt : Nat}
    (h : fenceInfo line = some (c, cnt)) : 3 ≤ cnt ∧ cnt ≤ line.length := by
  unfold fenceInfo at h
  cases line with
  | nil => exact Option.noConfusion h
  | cons a l =>
    simp only at h
    split at h
    · split at h
      · next hcnt =>
          rcases Prod.mk.injEq .. ▸ Option.some.inj h with ⟨rfl, rfl⟩
          exact ⟨hcnt, takeWhile_length_le _ _⟩
      · exact Option.noConfusion h
    · exact Option.noConfusion h

/-- Unfolding equation: a non-fence line is skipped. -/
theorem fenceScan_cons_nofence {strict : Bool} {n idx : Nat} {line : List Char}
    {rest : List (Nat × List Char)} {st : Option OpenFence}
    (hfi : fenceInfo line = none) :
    fenceScan strict n ((idx, line) :: rest) st = fenceScan strict n rest st := by
  rw [fenceScan, hfi]

/-- Unfolding equation: a fence line opens a fence. -/
theorem fenceScan_cons_open {strict : Bool} {n idx : Nat} {line : List Char}
    {rest : List (Nat × List Char)} {c : Char} {cnt : Nat}
    (hfi : fenceInfo line = some (c, cnt)) :
    fenceScan strict n ((idx, line) :: rest) none =
      fenceScan strict n rest (some ⟨c, cnt, idx⟩) := by
  rw [fenceScan, hfi]

/-- Unfolding equation: a matching fence line closes the open fence. -/
theorem fenceScan_cons_close {strict : Bool} {n idx : Nat} {line : List Char}
    {rest : List (Nat × List Char)} {c : Char} {cnt : Nat} {o : OpenFence}
    (hfi : fenceInfo line = some (c, cnt))
    (hcl : c = o.ch ∧ o.cnt ≤ cnt ∧ (strict = true → (line.drop cnt).all isJsSpace = true)) :
    fenceScan strict n ((idx, line) :: rest) (some o) =
      ⟨o.first, idx + line.length⟩ :: fenceScan strict n rest none := by
  rw [fenceScan, hfi]
  show (if c = o.ch ∧ o.cnt ≤ cnt ∧ (strict = true → (line.drop cnt).all isJsSpace = true)
      then (⟨o.first, idx + line.length⟩ : CodeRegion) :: fenceScan strict n rest none
      else fenceScan strict n rest (some o)) = _
  rw [if_pos hcl]

/-- Unfolding equation: a non-matching fence line leaves the open
fence in place. -/
theorem fenceScan_cons_stay {strict : Bool} {n idx : Nat} {line : List Char}
    {rest : List (Nat × List Char)} {c : Char} {cnt : Nat} {o : OpenFence}
    (hfi : fenceInfo line = some (c, cnt))
    (hcl : ¬ (c = o.ch ∧ o.cnt ≤ cnt ∧ (strict = true → (line.drop cnt).all isJsSpace = true))) :
    fenceScan strict n ((idx, line) :: rest) (some o) =
      fenceScan strict n rest (some o) := by
  rw [fenceScan, hfi]
  show (if c = o.ch ∧ o.cnt ≤ cnt ∧ (strict = true → (line.drop cnt).all isJsSpace = true)
      then (⟨o.first, idx + line.length⟩ : CodeRegion) :: fenceScan strict n rest none
      else fenceScan strict n rest (some o)) = _
  rw [if_neg hcl]

/-- The fence pass produces well-formed, ordered, bounded regions. -/
theorem fenceScan_props (strict : Bool) (n : Nat) :
    ∀ (lines : List (Nat × List Char)) (st : Option OpenFence) (lb : Nat),
      (∀ e ∈ lines, e.1 + e.2.length ≤ n) →
      List.Pairwise (fun a b => a.1 + a.2.length < b.1) lines →
      (∀ e ∈ lines, lb ≤ e.1) →
      (∀ o, st = some o → o.first + 3 ≤ n ∧ lb ≤ o.first ∧ ∀ e ∈ lines, o.first < e.1) →
      (∀ r ∈ fenceScan strict n lines st, r.start < r.stop ∧ r.stop ≤ n) ∧
      List.Pairwise (fun a b => a.stop ≤ b.start) (fenceScan strict n lines st) ∧
      (∀ r ∈ fenceScan strict n lines st, lb ≤ r.start) := by
  intro lines
  induction lines with
  | nil =>
    intro st lb hbound hpair hlb hst
    cases st with
    | none =>
      rw [fenceScan]
      exact ⟨by simp, List.Pairwise.nil, by simp⟩
    | some o =>
      rw [fenceScan]
      rcases hst o rfl with ⟨h3, hlbo, _⟩
      refine ⟨?_, List.pairwise_singleton _ _, ?_⟩
      · intro r hr
        rcases List.mem_singleton.mp hr with rfl
        exact ⟨by show o.first < n; omega, Nat.le_refl n⟩
      · intro r hr
        rcases List.mem_singleton.mp hr with rfl
        exact hlbo
  | cons e rest ih =>
    intro st lb hbound hpair hlb hst
    rcases e with ⟨idx, line⟩
    have hbtail : ∀ e2 ∈ rest, e2.1 + e2.2.length ≤ n := fun e2 he2 => hbound e2 (by simp [he2])
    have hptail : List.Pairwise (fun a b => a.1 + a.2.length < b.1) rest := hpair.of_cons
    have hheadrel : ∀ e2 ∈ rest, idx + line.length < e2.1 := by
      intro e2 he2
      exact (List.pairwise_cons.mp hpair).1 e2 he2
    have hlbtail : ∀ e2 ∈ rest, lb ≤ e2.1 := fun e2 he2 => hlb e2 (by simp [he2])
    cases hfi : fenceInfo line with
    | none =>
      rw [fenceScan_cons_nofence hfi]
      apply ih st lb hbtail hptail hlbtail
      intro o ho
      rcases hst o ho with ⟨h1, h2, h3⟩
      exact ⟨h1, h2, fun e2 he2 => h3 e2 (by simp [he2])⟩
    | some ci =>
      rcases ci with ⟨c, cnt⟩
      cases st with
      | none =>
        have hlen := fenceInfo_len hfi
        rw [fenceScan_cons_open hfi]
        apply ih (some ⟨c, cnt, idx⟩) lb hbtail hptail hlbtail
        intro o ho
        rcases Option.some.inj ho with rfl
        refine ⟨?_, hlb (idx, line) (by simp), ?_⟩
        · show idx + 3 ≤ n
          have hb := hbound (idx, line) (by simp)
          simp at hb
          omega
        · intro e2 he2
          show idx < e2.1
          have := hheadrel e2 he2
          omega
      | some o =>
        by_cases hclose :
            c = o.ch ∧ o.cnt ≤ cnt ∧ (strict = true → (line.drop cnt).all isJsSpace = true)
        · rw [fenceScan_cons_close hfi hclose]
          rcases hst o rfl with ⟨ho3, holb, hofirst⟩
          have hofi : o.first < idx := hofirst (idx, line) (by simp)
          have hihh := ih none (idx + line.length) hbtail hptail
            (fun e2 he2 => Nat.le_of_lt (hheadrel e2 he2)) (by simp)
          refine ⟨?_, ?_, ?_⟩
          · intro r hr
            rcases List.mem_cons.mp hr with rfl | hr2
            · constructor
              · show o.first < idx + line.length
                omega
              · have hb := hbound (idx, line) (by simp)
                simpa using hb
            · exact hihh.1 r hr2
          · refine List.Pairwise.cons ?_ hihh.2.1
            intro b hb
            exact hihh.2.2 b hb
          · intro r hr
            rcases List.mem_cons.mp hr with rfl | hr2
            · exact holb
            · have h1 := hihh.2.2 r hr2
              have h2 := hlb (idx, line) (by simp)
              simp at h2
              omega
        · rw [fenceScan_cons_stay hfi hclose]
          apply ih (some o) lb hbtail hptail hlbtail
          intro o2 ho2
          rcases Option.some.inj ho2 with rfl
          rcases hst o rfl with ⟨h1, h2, h3⟩
          exact ⟨h1, h2, fun e2 he2 => h3 e2 (by simp [he2])⟩

/-- The inner inline scan only moves forward and stays in the text. -/
theorem scanInner_some_bounds (query : List CodeRegion → Nat → Option CodeRegion)
    (text : List Char) (regions : List CodeRegion) (btCount : Nat)
    (hq : ∀ rs pos r, query rs pos = some r → pos < r.stop) (hbt : 1 ≤ btCount) :
    ∀ (fuel j j2 : Nat), scanInner query text regions btCount fuel j = some j2 →
      j < j2 ∧ j2 ≤ text.length := by
  intro fuel
  induction fuel with
  | zero => intro j j2 h; simp [scanInner] at h
  | succ n ih =>
    intro j j2 h
    rw [scanInner] at h
    split at h
    · next hj =>
        split at h
        · next r hr =>
            have hstep := hq regions j r hr
            have := ih _ _ h
            omega
        · split at h
          · next hbq =>
              split at h
              · next hcnt =>
                  rcases Option.some.inj h with rfl
                  have hpos : 1 ≤ countRun text j backquote := countRun_pos hbq
                  rcases countRun_le text j backquote with hle | hle
                  · omega
                  · omega
              · next hcnt =>
                  have hpos : 1 ≤ countRun text j backquote := countRun_pos hbq
                  have := ih _ _ h
                  omega
          · have := ih _ _ h
            omega
    · exact absurd h (by simp)

/-- The outer inline scan preserves well-formedness and bounds of the
region list. -/
theorem scanOuter_bounds (query : List CodeRegion → Nat → Option CodeRegion)
    (text : List Char)
    (hq : ∀ rs pos r, query rs pos = some r → pos < r.stop) :
    ∀ (fuel i : Nat) (regions : List CodeRegion),
      (∀ r ∈ regions, r.start < r.stop ∧ r.stop ≤ text.length) →
      ∀ r ∈ scanOuter query text fuel i regions, r.start < r.stop ∧ r.stop ≤ text.length := by
  intro fuel
  induction fuel with
  | zero => intro i regions hreg r hr; rw [scanOuter] at hr; exact hreg r hr
  | succ n ih =>
    intro i regions hreg r hr
    rw [scanOuter] at hr
    split at hr
    · split at hr
      · exact ih _ _ hreg r hr
      · split at hr
        · next hbq =>
            split at hr
            · next j hinner =>
                have hcnt1 : 1 ≤ countRun text i backquote := countRun_pos hbq
                have hbnd := scanInner_some_bounds query text regions
                  (countRun text i backquote) hq hcnt1 _ _ _ hinner
                apply ih _ _ ?_ r hr
                intro r2 hr2
                rcases List.mem_append.mp hr2 with h2 | h2
                · exact hreg r2 h2
                · rcases List.mem_singleton.mp h2 with rfl
                  exact ⟨by show i < j; omega, hbnd.2⟩
            · exact ih _ _ hreg r hr
        · exact ih _ _ hreg r hr
    · exact hreg r hr

/-- The fence pass of either variant yields well-formed bounded
regions in non-overlapping ascending order. -/
theorem fenceRegions_props (strict : Bool) (text : List Char) :
    (∀ r ∈ fenceScan strict text.length (linesWithPos text) none,
      r.start < r.stop ∧ r.stop ≤ text.length) ∧
    List.Pairwise (fun a b => a.stop ≤ b.start)
      (fenceScan strict text.length (linesWithPos text) none) := by
  have hl := linesAux_props text 0 [] 0 (by simp)
  have h := fenceScan_props strict text.length (linesWithPos text) none 0
    (fun e he => by simpa using (hl.1 e he).2)
    hl.2
    (fun e he => Nat.zero_le _)
    (fun o ho => Option.noConfusion ho)
  exact ⟨h.1, h.2.1⟩

/-- Sorting preserves membership. -/
theorem mem_sortRegions {r : CodeRegion} {rs : List CodeRegion} :
    r ∈ sortRegions rs ↔ r ∈ rs :=
  (List.perm_insertionSort regionLE rs).mem_iff

/-- C9 counterexample: on a concrete input the optimized
computeCodeRegions returns regions that overlap (an inline span
swallowing a fenced block), so the claimed conjunction fails. -/
theorem c9_counterexample :
    ¬ (sortedByStart (computeCodeRegionsA overlapText) ∧
       pairwiseNonOverlapping (computeCodeRegionsA overlapText) ∧
       regionsWithinBounds (computeCodeRegionsA overlapText) overlapText.length) := by
  decide

/-- C9 amended: for every input, the optimized computeCodeRegions
returns a list sorted by region start in which every region satisfies
start below stop and stop at most the input length; the regions need
not be pairwise non-overlapping. -/
theorem c9_sorted_and_bounded (text : List Char) :
    sortedByStart (computeCodeRegionsA text) ∧
    regionsWithinBounds (computeCodeRegionsA text) text.length := by
  constructor
  · exact List.sorted_insertionSort regionLE _
  · intro r hr
    rw [computeCodeRegionsA] at hr
    rw [mem_sortRegions] at hr
    refine scanOuter_bounds findContainingRegion text ?_ _ _ _ ?_ r hr
    · intro rs pos r2 h2
      exact (findContainingRegion_some rs pos r2 h2).2.2
    · exact (fenceRegions_props true text).1

/-- C10 counterexample: a list that is sorted by start and pairwise
non-overlapping, in which a region covers offset 150, yet the binary
search answers false — the middle region is degenerate. -/
theorem c10_counterexample :
    sortedByStart degenerateRegions ∧ pairwiseNonOverlapping degenerateRegions ∧
    (∃ r ∈ degenerateRegions, covers r 150) ∧
    isInsideCodeRegion 150 degenerateRegions = false := by decide

/-- C10 amended: for every offset and every region list that is sorted
by start, pairwise non-overlapping, and whose regions are well formed
(start below stop), the binary search answers true exactly when some
region covers the offset. -/
theorem c10_binary_search_correct (regions : List CodeRegion) (offset : Nat)
    (hsort : sortedByStart regions) (hdis : pairwiseNonOverlapping regions)
    (hwf : ∀ r ∈ regions, r.start < r.stop) :
    isInsideCodeRegion offset regions = true ↔ ∃ r ∈ regions, covers r offset := by
  constructor
  · exact bsearchGo_sound regions offset _ _ _
  · intro hex
    rcases hex with ⟨r, hr, hcov⟩
    rcases List.mem_iff_get.mp hr with ⟨k, hk⟩
    unfold isInsideCodeRegion
    apply bsearchGo_complete regions offset hsort hdis hwf
    · omega
    · omega
    · refine ⟨k, r, Nat.zero_le _, ?_, ?_, hcov⟩
      · have := k.isLt
        omega
      · rw [List.get?_eq_get k.isLt, hk]

/-- Witness for the amended C10 at a concrete sorted well-formed list. -/
theorem c10_witness :
    (sortedByStart [(⟨0, 3⟩ : CodeRegion), ⟨4, 10⟩] ∧
     pairwiseNonOverlapping [(⟨0, 3⟩ : CodeRegion), ⟨4, 10⟩] ∧
     (∀ r ∈ [(⟨0, 3⟩ : CodeRegion), ⟨4, 10⟩], r.start < r.stop)) ∧
    (isInsideCodeRegion 5 [(⟨0, 3⟩ : CodeRegion), ⟨4, 10⟩] = true ↔
      ∃ r ∈ [(⟨0, 3⟩ : CodeRegion), ⟨4, 10⟩], covers r 5) :=
  ⟨⟨by decide, by decide, by decide⟩,
   c10_binary_search_correct [⟨0, 3⟩, ⟨4, 10⟩] 5 (by decide) (by decide) (by decide)⟩

end CodeRegions

namespace MdToDocx

/-- Modelled from the spec: a markup text run with its formatting
flags, as consumed by generateRPr of src/md-to-docx.ts (not part of
the source snapshot; its unit tests pin the exact behavior). -/
structure MdRun where
  text : String
  bold : Bool
  italic : Bool
  strikethrough : Bool
  underline : Bool
  code : Bool
  highlight : Bool
  highlightColor : Option String
  superscript : Bool
  subscript : Bool
deriving DecidableEq, Repr

/-- A run with the given text and no formatting. -/
def plainRun (t : String) : MdRun :=
  ⟨t, false, false, false, false, false, false, none, false, false⟩

/-- One run-property marker of the generated package XML. -/
inductive Marker where
  | codeStyle
  | boldM
  | italicM
  | strikeM
  | underlineM
  | highlightM (color : String)
  | vertAlign (superscript : Bool)
deriving DecidableEq, Repr

/-- Render one marker to its XML tag, exactly as pinned by the
generateRPr unit tests. -/
def renderMarker : Marker → String
  | .codeStyle => "<w:rStyle w:val=\"CodeChar\"/>"
  | .boldM => "<w:b/>"
  | .italicM => "<w:i/>"
  | .strikeM => "<w:strike/>"
  | .underlineM => "<w:u w:val=\"single\"/>"
  | .highlightM c => "<w:highlight w:val=\"" ++ c ++ "\"/>"
  | .vertAlign s => "<w:vertAlign w:val=\"" ++ (if s then "superscript" else "subscript") ++ "\"/>"

/-- Modelled from the spec: the ordered marker list generateRPr emits
for a run.  Superscript wins over subscript: at most one vertical
alignment marker is emitted, and it is the superscript one whenever
the superscript flag is set. -/
def rprMarkers (r : MdRun) : List Marker :=
  (if r.code then [Marker.codeStyle] else []) ++
  (if r.bold then [Marker.boldM] else []) ++
  (if r.italic then [Marker.italicM] else []) ++
  (if r.strikethrough then [Marker.strikeM] else []) ++
  (if r.underline then [Marker.underlineM] else []) ++
  (if r.highlight then [Marker.highlightM (r.highlightColor.getD "yellow")] else []) ++
  (if r.superscript then [Marker.vertAlign true]
   else if r.subscript then [Marker.vertAlign false] else [])

/-- Modelled from the spec: generateRPr — empty for an unformatted
run, otherwise the markers wrapped in a run-properties element. -/
def generateRPr (r : MdRun) : String :=
  if rprMarkers r = [] then ""
  else "<w:rPr>" ++ String.join ((rprMarkers r).map renderMarker) ++ "</w:rPr>"

/-- Minimal XML escaping of text content (generateRun escapes
ampersand and angle brackets, as pinned by its unit tests). -/
def escapeXml (s : String) : String :=
  String.join (s.toList.map fun c =>
    if c = '&' then "&amp;"
    else if c = '<' then "&lt;"
    else if c = '>' then "&gt;"
    else String.singleton c)

/-- Modelled from the spec: generateRun — a run element holding the
properties and the escaped text. -/
def generateRun (text rpr : String) : String :=
  "<w:r>" ++ rpr ++ "<w:t xml:space=\"preserve\">" ++ escapeXml text ++ "</w:t></w:r>"

/-- A table row: a header flag and cells, each a run list. -/
structure MdTableRow where
  header : Bool
  cells : List (List MdRun)
deriving DecidableEq, Repr

/-- Force the bold flag of a run. -/
def forceBold (r : MdRun) : MdRun := { r with bold := true }

/-- The run rendered for a table cell: header-row runs are rendered
bold; body-row runs are unchanged. -/
def cellRun (header : Bool) (r : MdRun) : MdRun :=
  if header then forceBold r else r

/-- Modelled from the spec: a table cell of generateTable. -/
def generateCell (header : Bool) (runs : List MdRun) : String :=
  "<w:tc><w:p>" ++
    String.join (runs.map fun r => generateRun r.text (generateRPr (cellRun header r))) ++
  "</w:p></w:tc>"

/-- Modelled from the spec: a table row of generateTable. -/
def generateRow (row : MdTableRow) : String :=
  "<w:tr>" ++ String.join (row.cells.map (generateCell row.header)) ++ "</w:tr>"

/-- Modelled from the spec: generateTable of src/md-to-docx.ts — a
bordered table element over the rendered rows; header-row cell runs
are forced bold before run properties are generated. -/
def generateTable (rows : List MdTableRow) : String :=
  "<w:tbl><w:tblPr><w:tblBorders/></w:tblPr>" ++
    String.join (rows.map generateRow) ++ "</w:tbl>"

end MdToDocx

namespace RoundTrip

/-- The backtick character, written via its code point. -/
def tick : Char := Char.ofNat 96

/-- Modelled from the spec: a block of the shared content-item model
as far as the round-trip fidelity properties observe it: headings,
list items, fenced code blocks (with a closed flag for a fence still
open at end of input), and plain paragraph lines. -/
inductive Blk where
  | heading (level : Nat) (text : List Char)
  | listItem (ordered : Bool) (text : List Char)
  | codeBlock (body : List (List Char)) (closed : Bool)
  | para (text : List Char)
deriving DecidableEq, Repr

/-- A code-fence line: three or more backticks or tildes at line
start. -/
def fenceLine (l : List Char) : Bool :=
  match l with
  | c :: _ =>
    (c = tick ∨ c = '~') ∧ 3 ≤ (l.takeWhile (fun d => d = c)).length
  | [] => false

/-- A line holding only spaces and tabs. -/
def blankLine (l : List Char) : Bool :=
  l.all fun c => c = ' ' ∨ c = '\t'

/-- Heading recognition: a run of one or more number signs followed by
a space; yields the level and the text after the space. -/
def headingOf (l : List Char) : Option (Nat × List Char) :=
  let k := (l.takeWhile (fun c => c = '#')).length
  if 1 ≤ k ∧ l.get? k = some ' ' then some (k, l.drop (k + 1)) else none

/-- List-item recognition: a bullet marker and a space, or a digit
run, a dot and a space; yields orderedness and the item text. -/
def listOf (l : List Char) : Option (Bool × List Char) :=
  match l with
  | '-' :: ' ' :: t => some (false, t)
  | '*' :: ' ' :: t => some (false, t)
  | '+' :: ' ' :: t => some (false, t)
  | _ =>
    let k := (l.takeWhile (fun c => c.isDigit)).length
    if 1 ≤ k ∧ l.get? k = some '.' ∧ l.get? (k + 1) = some ' ' then
      some (true, l.drop (k + 2))
    else none

/-- Modelled from the spec: the markup parser of the reverse path,
line by line, with the body of an open code fence carried in reverse
as the state.  Blank lines separate blocks and are not content; a
fence line toggles code-block mode; an unclosed fence at end of input
yields an unclosed code block. -/
def parseLines : List (List Char) → Option (List (List Char)) → List Blk
  | [], none => []
  | [], some body => [Blk.codeBlock body.reverse false]
  | l :: ls, some body =>
    if fenceLine l then Blk.codeBlock body.reverse true :: parseLines ls none
    else parseLines ls (some (l :: body))
  | l :: ls, none =>
    if fenceLine l then parseLines ls (some [])
    else if blankLine l then parseLines ls none
    else
      match headingOf l with
      | some (k, t) => Blk.heading k t :: parseLines ls none
      | none =>
        match listOf l with
        | some (o, t) => Blk.listItem o t :: parseLines ls none
        | none => Blk.para l :: parseLines ls none

/-- Parse a document given as its lines. -/
def parseMd (ls : List (List Char)) : List Blk :=
  parseLines ls none

/-- The canonical fence line emitted by the renderer. -/
def fence3 : List Char := [tick, tick, tick]

/-- Modelled from the spec: the markup renderer of the forward path,
emitting each block on canonical lines: heading markers by level, a
dash bullet or a numbered marker, fences around code bodies, plain
lines for paragraphs. -/
def renderBlk : Blk → List (List Char)
  | .heading k t => [List.replicate k '#' ++ ' ' :: t]
  | .listItem false t => [['-', ' '] ++ t]
  | .listItem true t => [['1', '.', ' '] ++ t]
  | .codeBlock body closed => fence3 :: body ++ (if closed then [fence3] else [])
  | .para t => [t]

/-- Render a block sequence to document lines. -/
def renderMd (bs : List Blk) : List (List Char) :=
  (bs.map renderBlk).flatten

/-- Paragraph styles of the generated package. -/
inductive PStyle where
  | headingStyle (level : Nat)
  | bulletItem
  | numberItem
  | normal
deriving DecidableEq, Repr

/-- Modelled from the spec: the package-side representation of one
block — a styled paragraph, or a code paragraph holding the code
lines of one block. -/
inductive DocxBlock where
  | p (style : PStyle) (text : List Char)
  | codeP (body : List (List Char))
deriving DecidableEq, Repr

/-- Modelled from the spec: the package builder of the reverse path,
mapping each content block to its package representation. -/
def blockToDocx : Blk → DocxBlock
  | .heading k t => .p (.headingStyle k) t
  | .listItem false t => .p .bulletItem t
  | .listItem true t => .p .numberItem t
  | .codeBlock body _ => .codeP body
  | .para t => .p .normal t

/-- Modelled from the spec: the document tree walker of the forward
path, mapping each package block back to a content block; code
paragraphs come back as closed code blocks. -/
def docxToBlock : DocxBlock → Blk
  | .p (.headingStyle k) t => .heading k t
  | .p .bulletItem t => .listItem false t
  | .p .numberItem t => .listItem true t
  | .p .normal t => .para t
  | .codeP body => .codeBlock body true

/-- The whole round trip on document lines: parse the markup, build
the package, walk the package back to content blocks, render markup. -/
def roundTrip (ls : List (List Char)) : List (List Char) :=
  renderMd (((parseMd ls).map blockToDocx).map docxToBlock)

/-- Whether a block is a heading. -/
def isHeadingBlk : Blk → Bool
  | .heading _ _ => true
  | _ => false

/-- Whether a block is a code block. -/
def isCodeBlk : Blk → Bool
  | .codeBlock _ _ => true
  | _ => false

/-- Whether a block is a list item. -/
def isListBlk : Blk → Bool
  | .listItem _ _ => true
  | _ => false

/-- Heading count of a document. -/
def headingCount (ls : List (List Char)) : Nat :=
  ((parseMd ls).filter isHeadingBlk).length

/-- Code-block count of a document. -/
def codeBlockCount (ls : List (List Char)) : Nat :=
  ((parseMd ls).filter isCodeBlk).length

/-- List-item count of a document. -/
def listItemCount (ls : List (List Char)) : Nat :=
  ((parseMd ls).filter isListBlk).length

/-- Split a character list into words at spaces and tabs. -/
def wordsOf (t : List Char) : List (List Char) :=
  (t.splitOnP (fun c => c = ' ' ∨ c = '\t')).filter (fun w => ¬ w.isEmpty)

/-- The plain text of a block outside code regions: code blocks
contribute nothing; markers are not text. -/
def blockText : Blk → List Char
  | .heading _ t => t
  | .listItem _ t => t
  | .codeBlock _ _ => []
  | .para t => t

/-- All plain-text words of a document outside code regions, in
order. -/
def wordsOutsideCode (ls : List (List Char)) : List (List Char) :=
  ((parseMd ls).map (fun b => wordsOf (blockText b))).flatten

/-- The blocks the parser can produce: positive heading levels,
fence-free code bodies, and paragraph lines that parse back as
paragraphs. -/
def goodBlk : Blk → Prop
  | .heading k _ => 1 ≤ k
  | .listItem _ _ => True
  | .codeBlock body _ => ∀ l ∈ body, fenceLine l = false
  | .para t => fenceLine t = false ∧ blankLine t = false ∧
      headingOf t = none ∧ listOf t = none

/-- Whether a code block is closed; other blocks carry no openness. -/
def closedBlk : Blk → Prop
  | .codeBlock _ closed => closed = true
  | _ => True

/-- One block through the package and back. -/
def rtBlock (b : Blk) : Blk := docxToBlock (blockToDocx b)

end RoundTrip

/-!
Theorems.
-/

namespace CodeRegions

/-- With only whitespace after every fence run, the closing checks of
the two variants coincide, so the fence passes agree. -/
theorem fenceScan_clean (n : Nat) :
    ∀ (lines : List (Nat × List Char)) (st : Option OpenFence),
      (∀ e ∈ lines, ∀ c cnt, fenceInfo e.2 = some (c, cnt) →
        (e.2.drop cnt).all isJsSpace = true) →
      fenceScan true n lines st = fenceScan false n lines st := by
  intro lines
  induction lines with
  | nil =>
    intro st hcl
    cases st with
    | none => rfl
    | some o => rfl
  | cons e rest ih =>
    intro st hcl
    obtain ⟨idx, line⟩ := e
    have hrest : ∀ e2 ∈ rest, ∀ c cnt, fenceInfo e2.2 = some (c, cnt) →
        (e2.2.drop cnt).all isJsSpace = true :=
      fun e2 he2 => hcl e2 (List.mem_cons_of_mem _ he2)
    cases hfi : fenceInfo line with
    | none =>
      rw [fenceScan_cons_nofence hfi, fenceScan_cons_nofence hfi]
      exact ih st hrest
    | some p =>
      obtain ⟨c, cnt⟩ := p
      have hsp : (line.drop cnt).all isJsSpace = true :=
        hcl (idx, line) (by simp) c cnt hfi
      cases st with
      | none =>
        rw [fenceScan_cons_open hfi, fenceScan_cons_open hfi]
        exact ih _ hrest
      | some o =>
        by_cases hco : c = o.ch ∧ o.cnt ≤ cnt
        · rw [fenceScan_cons_close hfi ⟨hco.1, hco.2, fun _ => hsp⟩,
            fenceScan_cons_close hfi ⟨hco.1, hco.2, fun h => absurd h (by simp)⟩]
          rw [ih none hrest]
        · rw [fenceScan_cons_stay hfi (fun h => hco ⟨h.1, h.2.1⟩),
            fenceScan_cons_stay hfi (fun h => hco ⟨h.1, h.2.1⟩)]
          exact ih _ hrest

/-- The linear query yields nothing when no region covers the
position. -/
theorem findInsideFence_none {rs : List CodeRegion} {pos : Nat}
    (h : ∀ r ∈ rs, ¬ (r.start ≤ pos ∧ pos < r.stop)) : findInsideFence rs pos = none := by
  unfold findInsideFence
  apply List.find?_eq_none.mpr
  intro r hr
  simpa using h r hr

/-- The early-exit query yields nothing when every region stops at or
before the position. -/
theorem findContainingRegion_stops {pos : Nat} :
    ∀ {rs : List CodeRegion}, (∀ r ∈ rs, r.stop ≤ pos) →
      findContainingRegion rs pos = none := by
  intro rs
  induction rs with
  | nil => intro h; rfl
  | cons a rs ih =>
    intro h
    have ha := h a (by simp)
    rw [findContainingRegion]
    by_cases h1 : pos < a.start
    · rw [if_pos h1]
    · rw [if_neg h1, if_neg (show ¬ pos < a.stop by omega)]
      exact ih (fun r hr => h r (List.mem_cons_of_mem a hr))

/-- On a sorted prefix followed by regions that already ended, the two
containment queries agree. -/
theorem query_eq (pos : Nat) :
    ∀ (F S : List CodeRegion), sortedByStart F → (∀ s ∈ S, s.stop ≤ pos) →
      findContainingRegion (F ++ S) pos = findInsideFence (F ++ S) pos := by
  intro F
  induction F with
  | nil =>
    intro S hF hS
    rw [List.nil_append, findContainingRegion_stops hS,
      findInsideFence_none (fun r hr => by have := hS r hr; omega)]
  | cons f F2 ih =>
    intro S hF hS
    obtain ⟨hfb, hF2⟩ := List.pairwise_cons.mp hF
    rw [List.cons_append, findContainingRegion]
    by_cases h1 : pos < f.start
    · rw [if_pos h1]
      refine (findInsideFence_none ?_).symm
      intro r hr
      rcases List.mem_cons.mp hr with h | h
      · subst h
        omega
      · rcases List.mem_append.mp h with h | h
        · have := hfb r h
          have : f.start ≤ r.start := this
          omega
        · have := hS r h
          omega
    · rw [if_neg h1]
      by_cases h2 : pos < f.stop
      · rw [if_pos h2]
        have hf : findInsideFence (f :: (F2 ++ S)) pos = some f := by
          unfold findInsideFence
          rw [List.find?_cons_of_pos]
          simp only [decide_eq_true_eq]
          omega
        rw [hf]
      · rw [if_neg h2]
        have hskip : findInsideFence (f :: (F2 ++ S)) pos = findInsideFence (F2 ++ S) pos := by
          unfold findInsideFence
          rw [List.find?_cons_of_neg]
          simp only [decide_eq_true_eq]
          omega
        rw [hskip]
        exact ih S hF2 hS

/-- The inner scans of the two variants agree when the fence prefix is
sorted and every appended inline region already ended. -/
theorem scanInner_congr (text : List Char) (F S : List CodeRegion) (bt : Nat)
    (hF : sortedByStart F) :
    ∀ (fuel j : Nat), (∀ s ∈ S, s.stop ≤ j) →
      scanInner findContainingRegion text (F ++ S) bt fuel j =
        scanInner findInsideFence text (F ++ S) bt fuel j := by
  intro fuel
  induction fuel with
  | zero => intro j hS; rfl
  | succ n ih =>
    intro j hS
    rw [scanInner, scanInner]
    by_cases hj : j < text.length
    · rw [if_pos hj, if_pos hj, query_eq j F S hF hS]
      cases hr : findInsideFence (F ++ S) j with
      | some r =>
        have hcov := findInsideFence_some hr
        exact ih r.stop (fun s hs => by have := hS s hs; omega)
      | none =>
        by_cases hbq : text.get? j = some backquote
        · rw [if_pos hbq, if_pos hbq]
          by_cases hc : countRun text j backquote = bt
          · rw [if_pos hc, if_pos hc]
          · rw [if_neg hc, if_neg hc]
            exact ih (j + countRun text j backquote)
              (fun s hs => by have := hS s hs; omega)
        · rw [if_neg hbq, if_neg hbq]
          exact ih (j + 1) (fun s hs => by have := hS s hs; omega)
    · rw [if_neg hj, if_neg hj]

/-- The outer scans of the two variants agree when the fence prefix is
sorted and every appended inline region already ended. -/
theorem scanOuter_congr (text : List Char) (F : List CodeRegion)
    (hF : sortedByStart F) :
    ∀ (fuel i : Nat) (S : List CodeRegion), (∀ s ∈ S, s.stop ≤ i) →
      scanOuter findContainingRegion text fuel i (F ++ S) =
        scanOuter findInsideFence text fuel i (F ++ S) := by
  intro fuel
  induction fuel with
  | zero => intro i S hS; rfl
  | succ n ih =>
    intro i S hS
    rw [scanOuter, scanOuter]
    by_cases hi : i < text.length
    · rw [if_pos hi, if_pos hi, query_eq i F S hF hS]
      cases hr : findInsideFence (F ++ S) i with
      | some r =>
        have hcov := findInsideFence_some hr
        exact ih r.stop S (fun s hs => by have := hS s hs; omega)
      | none =>
        by_cases hbq : text.get? i = some backquote
        · rw [if_pos hbq, if_pos hbq]
          rw [scanInner_congr text F S (countRun text i backquote) hF
            (text.length + 1) (i + countRun text i backquote)
            (fun s hs => by have := hS s hs; omega)]
          cases hinner : scanInner findInsideFence text (F ++ S)
              (countRun text i backquote) (text.length + 1)
              (i + countRun text i backquote) with
          | some j =>
            have hcnt1 : 1 ≤ countRun text i backquote := countRun_pos hbq
            have hbnd := scanInner_some_bounds findInsideFence text (F ++ S)
              (countRun text i backquote)
              (fun rs pos r h => (findInsideFence_some h).2.2) hcnt1 _ _ _ hinner
            show scanOuter findContainingRegion text n j (F ++ S ++ [⟨i, j⟩]) =
              scanOuter findInsideFence text n j (F ++ S ++ [⟨i, j⟩])
            rw [List.append_assoc F S [⟨i, j⟩]]
            refine ih j (S ++ [⟨i, j⟩]) ?_
            intro s hs
            rcases List.mem_append.mp hs with h | h
            · have := hS s h
              omega
            · rcases List.mem_singleton.mp h with rfl
              show j ≤ j
              omega
          | none =>
            exact ih (i + countRun text i backquote) S
              (fun s hs => by have := hS s hs; omega)
        · rw [if_neg hbq, if_neg hbq]
          exact ih (i + 1) S (fun s hs => by have := hS s hs; omega)
    · rw [if_neg hi, if_neg hi]

/-- The fence pass output is sorted by start. -/
theorem fenceRegions_sorted (strict : Bool) (text : List Char) :
    sortedByStart (fenceScan strict text.length (linesWithPos text) none) := by
  have h := fenceRegions_props strict text
  refine List.Pairwise.imp_of_mem ?_ h.2
  intro a b ha hb hab
  have hwf := (h.1 a ha).1
  show a.start ≤ b.start
  omega

/-- C8 counterexample: on a closing fence carrying an info string the
optimized variant accepts a longer region than the plain variant, so
the two implementations differ. -/
theorem c8_counterexample :
    computeCodeRegionsA sepText ≠ computeCodeRegionsB sepText := by
  decide

/-- C8 amended: on every input whose fence lines carry nothing but
whitespace after the fence run, the two computeCodeRegions variants
return identical region lists. -/
theorem c8_variants_agree (text : List Char) (h : cleanFenceLines text = true) :
    computeCodeRegionsA text = computeCodeRegionsB text := by
  unfold computeCodeRegionsA computeCodeRegionsB
  unfold cleanFenceLines at h
  have hcl : ∀ e ∈ linesWithPos text, ∀ c cnt, fenceInfo e.2 = some (c, cnt) →
      (e.2.drop cnt).all isJsSpace = true := by
    intro e he c cnt hfi
    have h2 := List.all_eq_true.mp h e he
    simpa [hfi] using h2
  have hfence := fenceScan_clean text.length (linesWithPos text) none hcl
  rw [← hfence]
  congr 1
  have hsorted := fenceRegions_sorted true text
  have h2 := scanOuter_congr text (fenceScan true text.length (linesWithPos text) none)
    hsorted (text.length + 1) 0 [] (fun s hs => absurd hs (List.not_mem_nil s))
  simpa using h2

/-- The C8 amended theorem applied to a concrete clean document, its
hypothesis checked concretely. -/
theorem c8_witness :
    cleanFenceLines cleanSample = true ∧
    computeCodeRegionsA cleanSample = computeCodeRegionsB cleanSample :=
  ⟨by decide, c8_variants_agree cleanSample (by decide)⟩

end CodeRegions

namespace Omml

/-- Scanning an appended list chains the two scans. -/
theorem braceScan_append (ts us : List LatexTok) (d : Nat) :
    braceScan (ts ++ us) d = (braceScan ts d).bind (fun e => braceScan us e) := by
  induction ts generalizing d with
  | nil => rfl
  | cons t ts ih =>
    cases t with
    | lbrace => exact ih (d + 1)
    | rbrace =>
      cases d with
      | zero => rfl
      | succ e => exact ih e
    | leftDelim s => exact ih d
    | rightDelim s => exact ih d
    | lit s => exact ih d

/-- Scanning an appended list chains the two scans. -/
theorem delimScan_append (ts us : List LatexTok) (d : Nat) :
    delimScan (ts ++ us) d = (delimScan ts d).bind (fun e => delimScan us e) := by
  induction ts generalizing d with
  | nil => rfl
  | cons t ts ih =>
    cases t with
    | leftDelim s => exact ih (d + 1)
    | rightDelim s =>
      cases d with
      | zero => rfl
      | succ e => exact ih e
    | lbrace => exact ih d
    | rbrace => exact ih d
    | lit s => exact ih d

/-- Neutral token lists are closed under concatenation. -/
theorem tokNeutral_append {ts us : List LatexTok} (h1 : tokNeutral ts)
    (h2 : tokNeutral us) : tokNeutral (ts ++ us) := by
  constructor
  · intro d
    rw [braceScan_append, h1.1 d]
    exact h2.1 d
  · intro d
    rw [delimScan_append, h1.2 d]
    exact h2.2 d

/-- The empty token list is neutral. -/
theorem tokNeutral_nil : tokNeutral ([] : List LatexTok) :=
  ⟨fun _ => rfl, fun _ => rfl⟩

/-- A lone literal token is neutral. -/
theorem tokNeutral_lit (s : String) : tokNeutral [LatexTok.lit s] :=
  ⟨fun _ => rfl, fun _ => rfl⟩

/-- A pair of literal tokens is neutral. -/
theorem tokNeutral_lits2 (a b : String) : tokNeutral [LatexTok.lit a, LatexTok.lit b] :=
  ⟨fun _ => rfl, fun _ => rfl⟩

/-- The fallback placeholder is always neutral: its single brace pair
closes what it opens. -/
theorem tokNeutral_fallback (tag : String) (children : List OmmlNode) :
    tokNeutral (fallbackToks tag children) :=
  ⟨fun _ => rfl, fun _ => rfl⟩

/-- Wrapping a neutral list in grouping braces stays neutral. -/
theorem tokNeutral_group {ts : List LatexTok} (h : tokNeutral ts) :
    tokNeutral (group ts) := by
  constructor
  · intro d
    show braceScan (ts ++ [LatexTok.rbrace]) (d + 1) = some d
    rw [braceScan_append, h.1]
    rfl
  · intro d
    show delimScan (ts ++ [LatexTok.rbrace]) d = some d
    rw [delimScan_append, h.2]
    rfl

/-- Wrapping a neutral list in a sized-delimiter pair stays neutral. -/
theorem tokNeutral_delimWrap (a b : String) {ts : List LatexTok} (h : tokNeutral ts) :
    tokNeutral ([LatexTok.leftDelim a] ++ ts ++ [LatexTok.rightDelim b]) := by
  constructor
  · intro d
    rw [braceScan_append]
    show (braceScan ts d).bind (fun e => braceScan [LatexTok.rightDelim b] e) = some d
    rw [h.1]
    rfl
  · intro d
    rw [delimScan_append]
    show (delimScan ts (d + 1)).bind (fun e => delimScan [LatexTok.rightDelim b] e) = some d
    rw [h.2]
    rfl

/-- Joining neutral lists with a neutral separator is neutral. -/
theorem tokNeutral_joinToks {sep : List LatexTok} (hsep : tokNeutral sep) :
    ∀ (l : List (List LatexTok)), (∀ t ∈ l, tokNeutral t) → tokNeutral (joinToks sep l)
  | [], _ => tokNeutral_nil
  | [t], h => h t (by simp)
  | t :: u :: us, h => by
    have h1 := h t (by simp)
    have hrest : ∀ x ∈ u :: us, tokNeutral x := fun x hx => h x (List.mem_cons_of_mem t hx)
    have h2 := tokNeutral_joinToks hsep (u :: us) hrest
    exact tokNeutral_append (tokNeutral_append h1 hsep) h2

/-- Every delimiter operand translation is one of the child translations. -/
theorem mem_delimOps {children : List OmmlNode} {subs : List (List LatexTok)}
    {t : List LatexTok} (h : t ∈ delimOps children subs) : t ∈ subs := by
  unfold delimOps at h
  rcases List.mem_filterMap.mp h with ⟨⟨c, s⟩, hp, he⟩
  split at he
  · injection he with h2
    subst h2
    exact (List.of_mem_zip hp).2
  · simp at he

/-- Every matrix row translation joins delimiter operands drawn from
one of the grandchild translation rows. -/
theorem mem_matrixRowsOf {children : List OmmlNode} {grands : List (List (List LatexTok))}
    {row : List LatexTok} (h : row ∈ matrixRowsOf children grands) :
    ∃ cells g, g ∈ grands ∧ row = joinToks [LatexTok.lit "&"] (delimOps cells g) := by
  unfold matrixRowsOf at h
  rcases List.mem_filterMap.mp h with ⟨⟨c, g⟩, hp, he⟩
  split at he
  · injection he with h2
    rename_i cells h3
    exact ⟨cells, g, (List.of_mem_zip hp).2, h2.symm⟩
  · simp at he

/-- An if-then-else of neutral token lists is neutral. -/
theorem tokNeutral_ite {c : Prop} [Decidable c] {a b : List LatexTok}
    (ha : tokNeutral a) (hb : tokNeutral b) : tokNeutral (if c then a else b) := by
  by_cases h : c
  · rw [if_pos h]
    exact ha
  · rw [if_neg h]
    exact hb

/-- The per-element renderer returns a neutral token list whenever
every child and grandchild translation handed to it is neutral. -/
theorem renderElem_neutral (tag : String) (children : List OmmlNode)
    (subs : List (List LatexTok)) (grands : List (List (List LatexTok)))
    (hs : ∀ t ∈ subs, tokNeutral t)
    (hg : ∀ g ∈ grands, ∀ t ∈ g, tokNeutral t) :
    tokNeutral (renderElem tag children subs grands) := by
  unfold renderElem
  refine tokNeutral_ite ?_ (tokNeutral_ite ?_ (tokNeutral_ite ?_ (tokNeutral_ite ?_
    (tokNeutral_ite ?_ (tokNeutral_ite ?_ (tokNeutral_ite ?_ (tokNeutral_ite ?_
    (tokNeutral_ite ?_ (tokNeutral_ite ?_ (tokNeutral_ite ?_ (tokNeutral_ite ?_
    (tokNeutral_ite tokNeutral_nil
      (tokNeutral_ite (tokNeutral_fallback _ _) tokNeutral_nil)))))))))))))
  -- fraction
  · split
    · rename_i tn td
      exact tokNeutral_append
        (tokNeutral_append (tokNeutral_lit _) (tokNeutral_group (hs tn (by simp))))
        (tokNeutral_group (hs td (by simp)))
    · exact tokNeutral_fallback _ _
  -- superscript
  · split
    · rename_i tb tp
      exact tokNeutral_append
        (tokNeutral_append (tokNeutral_group (hs tb (by simp))) (tokNeutral_lit _))
        (tokNeutral_group (hs tp (by simp)))
    · exact tokNeutral_fallback _ _
  -- subscript
  · split
    · rename_i tb tp
      exact tokNeutral_append
        (tokNeutral_append (tokNeutral_group (hs tb (by simp))) (tokNeutral_lit _))
        (tokNeutral_group (hs tp (by simp)))
    · exact tokNeutral_fallback _ _
  -- sub-superscript
  · split
    · rename_i tb t1 t2
      exact tokNeutral_append
        (tokNeutral_append
          (tokNeutral_append
            (tokNeutral_append (tokNeutral_group (hs tb (by simp))) (tokNeutral_lit _))
            (tokNeutral_group (hs t1 (by simp))))
          (tokNeutral_lit _))
        (tokNeutral_group (hs t2 (by simp)))
    · exact tokNeutral_fallback _ _
  -- radical
  · split
    · rename_i td te
      exact tokNeutral_append
        (tokNeutral_append
          (tokNeutral_append (tokNeutral_lit _) (hs td (by simp)))
          (tokNeutral_lit _))
        (tokNeutral_group (hs te (by simp)))
    · rename_i te
      exact tokNeutral_append (tokNeutral_lit _) (tokNeutral_group (hs te (by simp)))
    · exact tokNeutral_fallback _ _
  -- n-ary operator
  · split
    · rename_i tsb tsp te
      exact tokNeutral_append
        (tokNeutral_append
          (tokNeutral_append
            (tokNeutral_append (tokNeutral_lits2 _ _) (tokNeutral_group (hs tsb (by simp))))
            (tokNeutral_lit _))
          (tokNeutral_group (hs tsp (by simp))))
        (tokNeutral_group (hs te (by simp)))
    · exact tokNeutral_fallback _ _
  -- delimiter group
  · split
    · exact tokNeutral_fallback _ _
    · rename_i op ops heq
      apply tokNeutral_delimWrap
      apply tokNeutral_joinToks (tokNeutral_lit _)
      intro t ht
      rw [← heq] at ht
      exact hs t (mem_delimOps ht)
  -- accent
  · split
    · rename_i pr te
      split
      · exact tokNeutral_append (tokNeutral_lit _) (tokNeutral_group (hs te (by simp)))
      · exact tokNeutral_fallback _ _
    · exact tokNeutral_fallback _ _
  -- matrix
  · split
    · exact tokNeutral_fallback _ _
    · rename_i row rows heq
      refine tokNeutral_append (tokNeutral_append (tokNeutral_lit _) ?_) (tokNeutral_lit _)
      apply tokNeutral_joinToks (tokNeutral_lit _)
      intro t ht
      rw [← heq] at ht
      rcases mem_matrixRowsOf ht with ⟨cells, g, hgmem, hteq⟩
      subst hteq
      apply tokNeutral_joinToks (tokNeutral_lit _)
      intro u hu
      exact hg g hgmem u (mem_delimOps hu)
  -- function application
  · split
    · rename_i te
      refine tokNeutral_ite ?_ ?_
      · exact tokNeutral_append (tokNeutral_lit _) (tokNeutral_group (hs te (by simp)))
      · exact tokNeutral_append
          (tokNeutral_append (tokNeutral_lit _) (tokNeutral_group (tokNeutral_lit _)))
          (tokNeutral_group (hs te (by simp)))
    · exact tokNeutral_fallback _ _
  -- math run
  · exact tokNeutral_ite
      (tokNeutral_ite (tokNeutral_lit _) (tokNeutral_ite (tokNeutral_lit _)
        (tokNeutral_append (tokNeutral_lit _) (tokNeutral_group (tokNeutral_lit _)))))
      (tokNeutral_fallback _ _)
  -- literal text
  · exact tokNeutral_lit _

/-- Every node translation is a neutral token list, by mutual induction
over the translator. -/
theorem translateNode_neutral : ∀ node, tokNeutral (translateNode node) := by
  refine translateNode.induct
    (fun node => tokNeutral (translateNode node))
    (fun l => ∀ g ∈ grandToks l, ∀ t ∈ g, tokNeutral t)
    (fun l => ∀ t ∈ childToks l, tokNeutral t)
    (fun l => tokNeutral (ommlToks l))
    ?_ ?_ ?_ ?_ ?_ ?_ ?_ ?_ ?_ ?_
  · intro s
    simp only [translateNode]
    exact tokNeutral_lit _
  · intro tag cs hc hgr
    simp only [translateNode]
    exact renderElem_neutral tag cs (childToks cs) (grandToks cs) hc hgr
  · intro g hgm
    simp [grandToks] at hgm
  · intro tag cs rest h3cs h2rest g hgm
    simp only [grandToks] at hgm
    rcases List.mem_cons.mp hgm with h | h
    · subst h
      exact h3cs
    · exact h2rest g h
  · intro s rest h2rest g hgm
    simp only [grandToks] at hgm
    rcases List.mem_cons.mp hgm with h | h
    · subst h
      intro t ht
      exact absurd ht (by simp)
    · exact h2rest g h
  · intro t htm
    simp [childToks] at htm
  · intro tag cs rest h4cs h3rest t htm
    simp only [childToks] at htm
    rcases List.mem_cons.mp htm with h | h
    · subst h
      exact h4cs
    · exact h3rest t h
  · intro s rest h3rest t htm
    simp only [childToks] at htm
    rcases List.mem_cons.mp htm with h | h
    · subst h
      exact tokNeutral_lit _
    · exact h3rest t h
  · simp only [ommlToks]
    exact tokNeutral_nil
  · intro n ns h1 h4
    simp only [ommlToks]
    exact tokNeutral_append h1 h4

/-- The translation of any child list is neutral. -/
theorem ommlToks_neutral (children : List OmmlNode) : tokNeutral (ommlToks children) := by
  induction children with
  | nil =>
    simp only [ommlToks]
    exact tokNeutral_nil
  | cons n ns ih =>
    simp only [ommlToks]
    exact tokNeutral_append (translateNode_neutral n) ih

/-- Folding string concatenation distributes over a prepended piece. -/
theorem join_foldl (l : List String) :
    ∀ (a b : String), l.foldl (fun r s => r ++ s) (a ++ b) =
      a ++ l.foldl (fun r s => r ++ s) b := by
  induction l with
  | nil => intro a b; rfl
  | cons c l ih =>
    intro a b
    show l.foldl _ ((a ++ b) ++ c) = _
    rw [String.append_assoc]
    exact ih a (b ++ c)

/-- Joining a nonempty string list prepends its head. -/
theorem join_cons (a : String) (l : List String) :
    String.join (a :: l) = a ++ String.join l := by
  show l.foldl (fun r s => r ++ s) ("" ++ a) = a ++ l.foldl (fun r s => r ++ s) ""
  have h1 : ("" ++ a : String) = a ++ "" := by simp
  rw [h1]
  exact join_foldl l a ""

/-- The character brace scan chains over concatenation. -/
theorem charBraceScan_append (b : List Char) :
    ∀ (a : List Char) (d : Nat),
      charBraceScan (a ++ b) d = (charBraceScan a d).bind (fun e => charBraceScan b e) := by
  intro a
  induction a with
  | nil => intro d; rfl
  | cons c cs ih =>
    intro d
    show charBraceScan (c :: (cs ++ b)) d = _
    rw [charBraceScan, charBraceScan]
    by_cases h1 : c = lbraceChar
    · rw [if_pos h1, if_pos h1]
      exact ih (d + 1)
    · rw [if_neg h1, if_neg h1]
      by_cases h2 : c = rbraceChar
      · rw [if_pos h2, if_pos h2]
        cases d with
        | zero => rfl
        | succ e =>
          rw [if_neg (by omega), if_neg (by omega)]
          exact ih e
      · rw [if_neg h2, if_neg h2]
        exact ih d

/-- The delimiter lexer chains over concatenation, carrying its state. -/
theorem delimRun_append (b : List Char) :
    ∀ (a : List Char) (p : Option (List Char)) (d : Nat),
      delimRun (a ++ b) p d = (delimRun a p d).bind (fun x => delimRun b x.1 x.2) := by
  intro a
  induction a with
  | nil => intro p d; rfl
  | cons c cs ih =>
    intro p d
    cases p with
    | none =>
      show delimRun (c :: (cs ++ b)) none d = _
      simp only [delimRun]
      by_cases h : c = '\\'
      · rw [if_pos h, if_pos h]
        exact ih (some []) d
      · rw [if_neg h, if_neg h]
        exact ih none d
    | some run =>
      show delimRun (c :: (cs ++ b)) (some run) d = _
      simp only [delimRun]
      by_cases ha : c.isAlpha = true
      · rw [if_pos ha, if_pos ha]
        exact ih (some (run ++ [c])) d
      · rw [if_neg ha, if_neg ha]
        cases hf : flushRun run d with
        | none => rfl
        | some d2 =>
          show (if run = [] then delimRun (cs ++ b) none d2
              else if c = '\\' then delimRun (cs ++ b) (some []) d2
              else delimRun (cs ++ b) none d2) =
            (if run = [] then delimRun cs none d2
              else if c = '\\' then delimRun cs (some []) d2
              else delimRun cs none d2).bind (fun x => delimRun b x.1 x.2)
          by_cases hr : run = []
          · rw [if_pos hr, if_pos hr]
            exact ih none d2
          · rw [if_neg hr, if_neg hr]
            by_cases hb : c = '\\'
            · rw [if_pos hb, if_pos hb]
              exact ih (some []) d2
            · rw [if_neg hb, if_neg hb]
              exact ih none d2

/-- The opening word begins itself. -/
theorem lrStart_left : lrStart leftWord = true := by decide

/-- The closing word begins itself. -/
theorem lrStart_right : lrStart rightWord = true := by decide

/-- A run that begins neither delimiter word flushes with no effect. -/
theorem flushRun_safe {run : List Char} (h : lrStart run = false) (d : Nat) :
    flushRun run d = some d := by
  have h1 : ¬ run = leftWord := fun he => by
    rw [he, lrStart_left] at h
    exact Bool.noConfusion h
  have h2 : ¬ run = rightWord := fun he => by
    rw [he, lrStart_right] at h
    exact Bool.noConfusion h
  unfold flushRun
  rw [if_neg h1, if_neg h2]

/-- A run whose extension begins a delimiter word begins one itself. -/
theorem lrStart_extend {run : List Char} {c : Char}
    (h : lrStart (run ++ [c]) = true) : lrStart run = true := by
  unfold lrStart at h ⊢
  simp only [decide_eq_true_eq] at h ⊢
  rw [List.length_append, List.length_singleton] at h
  rcases h with h | h
  · left
    calc leftWord.take run.length
        = (leftWord.take (run.length + 1)).take run.length := by
          rw [List.take_take]
          congr 1
          omega
      _ = (run ++ [c]).take run.length := by rw [h]
      _ = run := List.take_left run [c]
  · right
    calc rightWord.take run.length
        = (rightWord.take (run.length + 1)).take run.length := by
          rw [List.take_take]
          congr 1
          omega
      _ = (run ++ [c]).take run.length := by rw [h]
      _ = run := List.take_left run [c]

/-- A pending run that can no longer become a delimiter word acts like
no pending run, except possibly carrying a longer harmless run to the
end of the input. -/
theorem pendRun : ∀ (cs run : List Char) (d : Nat), run ≠ [] → lrStart run = false →
    delimRun cs (some run) d = delimRun cs none d ∨
    (delimRun cs (some run) d = some (some (run ++ cs), d) ∧
      delimRun cs none d = some (none, d) ∧ lrStart (run ++ cs) = false) := by
  intro cs
  induction cs with
  | nil =>
    intro run d hne hlr
    right
    exact ⟨by simp [delimRun], rfl, by simpa using hlr⟩
  | cons c cs ih =>
    intro run d hne hlr
    by_cases ha : c.isAlpha = true
    · have hcb : ¬ c = '\\' := by
        intro he
        rw [he] at ha
        exact absurd ha (by decide)
      have hlr2 : lrStart (run ++ [c]) = false := by
        cases hx : lrStart (run ++ [c]) with
        | false => rfl
        | true =>
          have h2 := lrStart_extend hx
          rw [hlr] at h2
          exact Bool.noConfusion h2
      have hne2 : run ++ [c] ≠ [] := by simp
      have hstepL : delimRun (c :: cs) (some run) d = delimRun cs (some (run ++ [c])) d := by
        simp only [delimRun]
        rw [if_pos ha]
      have hstepR : delimRun (c :: cs) none d = delimRun cs none d := by
        simp only [delimRun]
        rw [if_neg hcb]
      rw [hstepL, hstepR]
      rcases ih (run ++ [c]) d hne2 hlr2 with h | ⟨h1, h2, h3⟩
      · left
        exact h
      · right
        have hassoc : (run ++ [c]) ++ cs = run ++ c :: cs := by simp
        refine ⟨?_, h2, ?_⟩
        · rw [h1, hassoc]
        · rw [← hassoc]
          exact h3
    · have hfl : flushRun run d = some d := flushRun_safe hlr d
      left
      simp only [delimRun]
      rw [if_neg ha, hfl]
      show (if run = [] then delimRun cs none d
        else if c = '\\' then delimRun cs (some []) d else delimRun cs none d) = _
      rw [if_neg hne]

/-- To-the-end delimiter scanning ignores a harmless pending run. -/
theorem pendFlush {run : List Char} (hne : run ≠ []) (hlr : lrStart run = false)
    (cs : List Char) (d : Nat) :
    delimFlush cs (some run) d = delimFlush cs none d := by
  unfold delimFlush
  rcases pendRun cs run d hne hlr with h | ⟨h1, h2, h3⟩
  · rw [h]
  · rw [h1, h2]
    show flushRun (run ++ cs) d = some d
    exact flushRun_safe h3 d

/-- The empty string is a harmless literal piece. -/
theorem litStrOK_empty : litStrOK "" :=
  ⟨fun _ => rfl, fun _ => Or.inl rfl⟩

/-- Harmless literal pieces compose. -/
theorem litStrOK_append {a b : String} (ha : litStrOK a) (hb : litStrOK b) :
    litStrOK (a ++ b) := by
  have hsplit : (a ++ b).toList = a.toList ++ b.toList := String.data_append a b
  constructor
  · intro d
    rw [hsplit, charBraceScan_append, ha.1 d]
    exact hb.1 d
  · intro d
    rw [hsplit, delimRun_append]
    rcases ha.2 d with h | ⟨run, h, hne, hlr⟩
    · rw [h]
      exact hb.2 d
    · rw [h]
      show delimRun b.toList (some run) d = some (none, d) ∨
        ∃ run2, delimRun b.toList (some run) d = some (some run2, d) ∧
          run2 ≠ [] ∧ lrStart run2 = false
      rcases pendRun b.toList run d hne hlr with h2 | ⟨h21, h22, h23⟩
      · rw [h2]
        exact hb.2 d
      · right
        exact ⟨run ++ b.toList, h21, by simp [hne], h23⟩

/-- A literal whose characters leave the lexer outside a control word
with the depth unchanged is harmless. -/
theorem litStrOK_of_none (s : String)
    (hb : ∀ d, charBraceScan s.toList d = some d)
    (hd : ∀ d, delimRun s.toList none d = some (none, d)) : litStrOK s :=
  ⟨hb, fun d => Or.inl (hd d)⟩

/-- A literal ending inside a control word that is not a delimiter
word is harmless. -/
theorem litStrOK_of_run (s : String) (run : List Char) (hne : run ≠ [])
    (hlr : lrStart run = false)
    (hb : ∀ d, charBraceScan s.toList d = some d)
    (hd : ∀ d, delimRun s.toList none d = some (some run, d)) : litStrOK s :=
  ⟨hb, fun d => Or.inr ⟨run, hd d, hne, hlr⟩⟩

/-- Every escaped character is a harmless literal piece. -/
theorem escapeChar_ok (c : Char) : litStrOK (escapeChar c) := by
  unfold escapeChar
  repeat' split
  all_goals try exact litStrOK_of_none _ (fun d => rfl) (fun d => rfl)
  rename_i h1 h2 h3 h4 h5 h6 h7 h8 h9 h10
  refine litStrOK_of_none _ ?_ ?_
  · intro d
    show charBraceScan [c] d = some d
    rw [charBraceScan, if_neg h6, if_neg h7]
    rfl
  · intro d
    show delimRun [c] none d = some (none, d)
    simp only [delimRun]
    rw [if_neg h10]

/-- Every mapped character is a harmless literal piece. -/
theorem unicode_ok (c : Char) : litStrOK (unicodeToLatex c) := by
  unfold unicodeToLatex
  repeat' split
  all_goals first
    | exact escapeChar_ok c
    | exact litStrOK_of_run _ _ (by decide) (by decide) (fun d => rfl) (fun d => rfl)

/-- Joining harmless per-character pieces is harmless. -/
theorem join_map_ok (f : Char → String) (hf : ∀ c, litStrOK (f c)) :
    ∀ (l : List Char), litStrOK (String.join (l.map f)) := by
  intro l
  induction l with
  | nil => exact litStrOK_empty
  | cons c l ih =>
    rw [List.map_cons, join_cons]
    exact litStrOK_append (hf c) ih

/-- Mapped run text is a harmless literal piece. -/
theorem mapText_ok (s : String) : litStrOK (mapText s) :=
  join_map_ok _ unicode_ok _

/-- Escaped text is a harmless literal piece. -/
theorem escapeLatex_ok (s : String) : litStrOK (escapeLatex s) :=
  join_map_ok _ escapeChar_ok _

/-- Every n-ary operator command is a harmless literal piece. -/
theorem naryCmd_ok (g : String) : litStrOK (naryCmd g) := by
  unfold naryCmd
  repeat' split
  all_goals first
    | exact escapeLatex_ok g
    | exact litStrOK_of_run _ _ (by decide) (by decide) (fun d => rfl) (fun d => rfl)

/-- Every accent command is a harmless literal piece. -/
theorem accCmd_ok {g : String} {cmd : String} (h : accCmd g = some cmd) :
    litStrOK cmd := by
  unfold accCmd at h
  repeat' split at h
  all_goals first
    | (injection h with h2
       subst h2
       exact litStrOK_of_run _ _ (by decide) (by decide) (fun d => rfl) (fun d => rfl))
    | exact absurd h (by simp)

/-- Every known function command is a harmless literal piece. -/
theorem knownFun_ok {f : String} (h : f ∈ knownFunctions) : litStrOK ("\\" ++ f) := by
  simp only [knownFunctions, List.mem_cons, List.not_mem_nil, or_false] at h
  rcases h with rfl | rfl | rfl | rfl | rfl | rfl | rfl | rfl | rfl <;>
    exact litStrOK_of_run _ _ (by decide) (by decide) (fun d => rfl) (fun d => rfl)

/-- Every token of the fallback placeholder is safe. -/
theorem fallbackToks_safe (tag : String) (children : List OmmlNode) :
    ∀ t ∈ fallbackToks tag children, safeTok t := by
  intro t ht
  unfold fallbackToks at ht
  simp only [List.mem_cons, List.not_mem_nil, or_false] at ht
  rcases ht with rfl | rfl | rfl | rfl
  · exact litStrOK_of_run _ ['t', 'e', 'x', 't'] (by decide) (by decide)
      (fun d => rfl) (fun d => rfl)
  · trivial
  · show litStrOK _
    refine litStrOK_append (litStrOK_append (litStrOK_append ?_ (escapeLatex_ok _)) ?_) ?_
    · exact litStrOK_of_none _ (fun d => rfl) (fun d => rfl)
    · exact litStrOK_of_none _ (fun d => rfl) (fun d => rfl)
    · split
      · exact litStrOK_empty
      · exact litStrOK_append (litStrOK_of_none _ (fun d => rfl) (fun d => rfl))
          (escapeLatex_ok _)
  · trivial

/-- Safe token sets are closed under concatenation. -/
theorem safe_append {ts us : List LatexTok} (h1 : ∀ t ∈ ts, safeTok t)
    (h2 : ∀ t ∈ us, safeTok t) : ∀ t ∈ ts ++ us, safeTok t :=
  fun t ht => (List.mem_append.mp ht).elim (h1 t) (h2 t)

/-- Grouping a safe token set stays safe. -/
theorem safe_group {ts : List LatexTok} (h : ∀ t ∈ ts, safeTok t) :
    ∀ t ∈ group ts, safeTok t := by
  intro t ht
  unfold group at ht
  rcases List.mem_cons.mp ht with rfl | ht2
  · trivial
  · rcases List.mem_append.mp ht2 with h3 | h3
    · exact h t h3
    · rcases List.mem_singleton.mp h3 with rfl
      trivial

/-- A single safe literal token. -/
theorem safe_lit {s : String} (h : litStrOK s) : ∀ t ∈ [LatexTok.lit s], safeTok t := by
  intro t ht
  rcases List.mem_singleton.mp ht with rfl
  exact h

/-- The empty token set is safe. -/
theorem safe_nil : ∀ t ∈ ([] : List LatexTok), safeTok t := by
  intro t ht
  exact absurd ht (List.not_mem_nil t)

/-- A conditional between safe token sets is safe. -/
theorem safe_ite {c : Prop} [Decidable c] {a b : List LatexTok}
    (ha : ∀ t ∈ a, safeTok t) (hb : ∀ t ∈ b, safeTok t) :
    ∀ t ∈ (if c then a else b), safeTok t := by
  by_cases h : c
  · rw [if_pos h]
    exact ha
  · rw [if_neg h]
    exact hb

/-- Joining safe token sets with a safe separator is safe. -/
theorem safe_join {sep : List LatexTok} (hsep : ∀ t ∈ sep, safeTok t) :
    ∀ (l : List (List LatexTok)), (∀ x ∈ l, ∀ t ∈ x, safeTok t) →
      ∀ t ∈ joinToks sep l, safeTok t
  | [], _ => by
    intro t ht
    simp [joinToks] at ht
  | [x], h => by
    intro t ht
    exact h x (by simp) t ht
  | x :: y :: ys, h => by
    intro t ht
    rcases List.mem_append.mp ht with h2 | h2
    · rcases List.mem_append.mp h2 with h3 | h3
      · exact h x (by simp) t h3
      · exact hsep t h3
    · exact safe_join hsep (y :: ys) (fun z hz => h z (List.mem_cons_of_mem x hz)) t h2

/-- The per-element renderer emits only safe tokens when every child
and grandchild translation is safe. -/
theorem renderElem_safe (tag : String) (children : List OmmlNode)
    (subs : List (List LatexTok)) (grands : List (List (List LatexTok)))
    (hs : ∀ ts ∈ subs, ∀ t ∈ ts, safeTok t)
    (hg : ∀ g ∈ grands, ∀ ts ∈ g, ∀ t ∈ ts, safeTok t) :
    ∀ t ∈ renderElem tag children subs grands, safeTok t := by
  unfold renderElem
  refine safe_ite ?_ (safe_ite ?_ (safe_ite ?_ (safe_ite ?_
    (safe_ite ?_ (safe_ite ?_ (safe_ite ?_ (safe_ite ?_
    (safe_ite ?_ (safe_ite ?_ (safe_ite ?_ (safe_ite ?_
    (safe_ite safe_nil
      (safe_ite (fallbackToks_safe _ _) safe_nil)))))))))))))
  -- fraction
  · split
    · rename_i tn td
      exact safe_append
        (safe_append (safe_lit (litStrOK_of_run _ ['f', 'r', 'a', 'c'] (by decide)
          (by decide) (fun d => rfl) (fun d => rfl))) (safe_group (hs tn (by simp))))
        (safe_group (hs td (by simp)))
    · exact fallbackToks_safe _ _
  -- superscript
  · split
    · rename_i tb tp
      exact safe_append
        (safe_append (safe_group (hs tb (by simp)))
          (safe_lit (litStrOK_of_none _ (fun d => rfl) (fun d => rfl))))
        (safe_group (hs tp (by simp)))
    · exact fallbackToks_safe _ _
  -- subscript
  · split
    · rename_i tb tp
      exact safe_append
        (safe_append (safe_group (hs tb (by simp)))
          (safe_lit (litStrOK_of_none _ (fun d => rfl) (fun d => rfl))))
        (safe_group (hs tp (by simp)))
    · exact fallbackToks_safe _ _
  -- sub-superscript
  · split
    · rename_i tb t1 t2
      exact safe_append
        (safe_append
          (safe_append
            (safe_append (safe_group (hs tb (by simp)))
              (safe_lit (litStrOK_of_none _ (fun d => rfl) (fun d => rfl))))
            (safe_group (hs t1 (by simp))))
          (safe_lit (litStrOK_of_none _ (fun d => rfl) (fun d => rfl))))
        (safe_group (hs t2 (by simp)))
    · exact fallbackToks_safe _ _
  -- radical
  · split
    · rename_i td te
      exact safe_append
        (safe_append
          (safe_append (safe_lit (litStrOK_of_none "\\sqrt["
            (fun d => rfl) (fun d => rfl))) (hs td (by simp)))
          (safe_lit (litStrOK_of_none _ (fun d => rfl) (fun d => rfl))))
        (safe_group (hs te (by simp)))
    · rename_i te
      exact safe_append (safe_lit (litStrOK_of_run _ ['s', 'q', 'r', 't'] (by decide)
        (by decide) (fun d => rfl) (fun d => rfl))) (safe_group (hs te (by simp)))
    · exact fallbackToks_safe _ _
  -- n-ary operator
  · split
    · rename_i tsb tsp te
      refine safe_append
        (safe_append
          (safe_append
            (safe_append ?_ (safe_group (hs tsb (by simp))))
            (safe_lit (litStrOK_of_none _ (fun d => rfl) (fun d => rfl))))
          (safe_group (hs tsp (by simp))))
        (safe_group (hs te (by simp)))
      intro t ht
      simp only [List.mem_cons, List.not_mem_nil, or_false] at ht
      rcases ht with rfl | rfl
      · exact naryCmd_ok _
      · exact litStrOK_of_none _ (fun d => rfl) (fun d => rfl)
    · exact fallbackToks_safe _ _
  -- delimiter group
  · split
    · exact fallbackToks_safe _ _
    · rename_i op ops heq
      refine safe_append (safe_append ?_ ?_) ?_
      · intro t ht
        rcases List.mem_singleton.mp ht with rfl
        show "(" = "("
        rfl
      · apply safe_join (safe_lit (litStrOK_of_none "," (fun d => rfl) (fun d => rfl)))
        intro x hx
        rw [← heq] at hx
        exact hs x (mem_delimOps hx)
      · intro t ht
        rcases List.mem_singleton.mp ht with rfl
        show ")" = ")"
        rfl
  -- accent
  · split
    · rename_i pr te
      split
      · rename_i cmd hacc
        exact safe_append (safe_lit (accCmd_ok hacc)) (safe_group (hs te (by simp)))
      · exact fallbackToks_safe _ _
    · exact fallbackToks_safe _ _
  -- matrix
  · split
    · exact fallbackToks_safe _ _
    · rename_i row rows heq
      refine safe_append (safe_append
        (safe_lit (litStrOK_of_none _ (fun d => rfl) (fun d => rfl))) ?_)
        (safe_lit (litStrOK_of_none _ (fun d => rfl) (fun d => rfl)))
      apply safe_join (safe_lit (litStrOK_of_none "\\\\" (fun d => rfl) (fun d => rfl)))
      intro x hx
      rw [← heq] at hx
      rcases mem_matrixRowsOf hx with ⟨cells, g, hgmem, hxeq⟩
      subst hxeq
      apply safe_join (safe_lit (litStrOK_of_none "&" (fun d => rfl) (fun d => rfl)))
      intro y hy
      exact hg g hgmem y (mem_delimOps hy)
  -- function application
  · split
    · rename_i fn c0 h0 te
      by_cases hfn : extractTextList fn ∈ knownFunctions
      · rw [if_pos hfn]
        exact safe_append (safe_lit (knownFun_ok hfn)) (safe_group (hs te (by simp)))
      · rw [if_neg hfn]
        exact safe_append
          (safe_append (safe_lit (litStrOK_of_run _
            ['o', 'p', 'e', 'r', 'a', 't', 'o', 'r', 'n', 'a', 'm', 'e'] (by decide)
            (by decide) (fun d => rfl) (fun d => rfl)))
            (safe_group (safe_lit (escapeLatex_ok _))))
          (safe_group (hs te (by simp)))
    · exact fallbackToks_safe _ _
  -- math run
  · refine safe_ite ?_ (fallbackToks_safe _ _)
    refine safe_ite (safe_lit (mapText_ok _)) ?_
    by_cases hfn : runText children ∈ knownFunctions
    · rw [if_pos hfn]
      exact safe_lit (knownFun_ok hfn)
    · rw [if_neg hfn]
      exact safe_append (safe_lit (litStrOK_of_run _ ['m', 'a', 't', 'h', 'r', 'm']
        (by decide) (by decide) (fun d => rfl) (fun d => rfl)))
        (safe_group (safe_lit (mapText_ok _)))
  -- literal text
  · exact safe_lit (mapText_ok _)

/-- Every token the translator emits is safe, by mutual induction. -/
theorem translateNode_safe : ∀ node, ∀ t ∈ translateNode node, safeTok t := by
  refine translateNode.induct
    (fun node => ∀ t ∈ translateNode node, safeTok t)
    (fun l => ∀ g ∈ grandToks l, ∀ ts ∈ g, ∀ t ∈ ts, safeTok t)
    (fun l => ∀ ts ∈ childToks l, ∀ t ∈ ts, safeTok t)
    (fun l => ∀ t ∈ ommlToks l, safeTok t)
    ?_ ?_ ?_ ?_ ?_ ?_ ?_ ?_ ?_ ?_
  · intro s
    simp only [translateNode]
    exact safe_lit (mapText_ok _)
  · intro tag cs hc hgr
    simp only [translateNode]
    exact renderElem_safe tag cs (childToks cs) (grandToks cs) hc hgr
  · intro g hgm
    simp [grandToks] at hgm
  · intro tag cs rest h3cs h2rest g hgm
    simp only [grandToks] at hgm
    rcases List.mem_cons.mp hgm with h | h
    · subst h
      exact h3cs
    · exact h2rest g h
  · intro s rest h2rest g hgm
    simp only [grandToks] at hgm
    rcases List.mem_cons.mp hgm with h | h
    · subst h
      intro ts hts
      exact absurd hts (by simp)
    · exact h2rest g h
  · intro ts hts
    simp [childToks] at hts
  · intro tag cs rest h4cs h3rest ts hts
    simp only [childToks] at hts
    rcases List.mem_cons.mp hts with h | h
    · subst h
      exact h4cs
    · exact h3rest ts h
  · intro s rest h3rest ts hts
    simp only [childToks] at hts
    rcases List.mem_cons.mp hts with h | h
    · subst h
      exact safe_lit (mapText_ok _)
    · exact h3rest ts h
  · intro t ht
    simp [ommlToks] at ht
  · intro n ns h1 h4
    simp only [ommlToks]
    exact safe_append h1 h4

/-- Every token of a translated child list is safe. -/
theorem ommlToks_safe (children : List OmmlNode) :
    ∀ t ∈ ommlToks children, safeTok t := by
  induction children with
  | nil =>
    intro t ht
    simp [ommlToks] at ht
  | cons n ns ih =>
    simp only [ommlToks]
    exact safe_append (translateNode_safe n) ih

/-- Rendering a token list splits into the head rendering and the
tail rendering, at the character level. -/
theorem renderToks_cons_toList (t : LatexTok) (ts : List LatexTok) :
    (renderToks (t :: ts)).toList = (renderTok t).toList ++ (renderToks ts).toList := by
  show (String.join (renderTok t :: ts.map renderTok)).toList = _
  rw [join_cons]
  exact String.data_append _ _

/-- The character brace scan of the rendered string agrees with the
token brace scan on safe tokens. -/
theorem brace_bridge : ∀ (ts : List LatexTok), (∀ t ∈ ts, safeTok t) →
    ∀ d, charBraceScan (renderToks ts).toList d = braceScan ts d := by
  intro ts
  induction ts with
  | nil => intro h d; rfl
  | cons t ts ih =>
    intro h d
    have hts := fun x hx => h x (List.mem_cons_of_mem t hx)
    rw [renderToks_cons_toList, charBraceScan_append]
    cases t with
    | lit s =>
      have hl : litStrOK s := h (.lit s) (by simp)
      rw [show (renderTok (LatexTok.lit s)).toList = s.toList from rfl, hl.1 d]
      exact ih hts d
    | lbrace =>
      rw [show charBraceScan (renderTok LatexTok.lbrace).toList d = some (d + 1) from rfl]
      exact ih hts (d + 1)
    | rbrace =>
      cases d with
      | zero =>
        rw [show charBraceScan (renderTok LatexTok.rbrace).toList 0 = none from rfl]
        rfl
      | succ e =>
        rw [show charBraceScan (renderTok LatexTok.rbrace).toList (e + 1) = some e from rfl]
        exact ih hts e
    | leftDelim s =>
      have hs2 : s = "(" := h (.leftDelim s) (by simp)
      subst hs2
      rw [show charBraceScan (renderTok (LatexTok.leftDelim "(")).toList d = some d from rfl]
      exact ih hts d
    | rightDelim s =>
      have hs2 : s = ")" := h (.rightDelim s) (by simp)
      subst hs2
      rw [show charBraceScan (renderTok (LatexTok.rightDelim ")")).toList d = some d from rfl]
      exact ih hts d

/-- Splitting the delimiter scan-to-end over concatenation. -/
theorem delimFlush_append (a b : List Char) (p : Option (List Char)) (d : Nat) :
    delimFlush (a ++ b) p d =
      match delimRun a p d with
      | none => none
      | some x => delimFlush b x.1 x.2 := by
  unfold delimFlush
  rw [delimRun_append]
  cases delimRun a p d with
  | none => rfl
  | some x => rfl

/-- The delimiter lexer scan of the rendered string agrees with the
token delimiter scan on safe tokens. -/
theorem delim_bridge : ∀ (ts : List LatexTok), (∀ t ∈ ts, safeTok t) →
    ∀ d, delimFlush (renderToks ts).toList none d = delimScan ts d := by
  intro ts
  induction ts with
  | nil => intro h d; rfl
  | cons t ts ih =>
    intro h d
    have hts := fun x hx => h x (List.mem_cons_of_mem t hx)
    rw [renderToks_cons_toList, delimFlush_append]
    cases t with
    | lit s =>
      have hl : litStrOK s := h (.lit s) (by simp)
      rw [show (renderTok (LatexTok.lit s)).toList = s.toList from rfl]
      rcases hl.2 d with h2 | ⟨run, h2, hne, hlr⟩
      · rw [h2]
        exact ih hts d
      · rw [h2]
        show delimFlush (renderToks ts).toList (some run) d = _
        rw [pendFlush hne hlr]
        exact ih hts d
    | lbrace =>
      rw [show delimRun (renderTok LatexTok.lbrace).toList none d = some (none, d) from rfl]
      exact ih hts d
    | rbrace =>
      rw [show delimRun (renderTok LatexTok.rbrace).toList none d = some (none, d) from rfl]
      exact ih hts d
    | leftDelim s =>
      have hs2 : s = "(" := h (.leftDelim s) (by simp)
      subst hs2
      rw [show delimRun (renderTok (LatexTok.leftDelim "(")).toList none d =
        some (none, d + 1) from rfl]
      exact ih hts (d + 1)
    | rightDelim s =>
      have hs2 : s = ")" := h (.rightDelim s) (by simp)
      subst hs2
      cases d with
      | zero =>
        rw [show delimRun (renderTok (LatexTok.rightDelim ")")).toList none 0 =
          none from rfl]
        rfl
      | succ e =>
        rw [show delimRun (renderTok (LatexTok.rightDelim ")")).toList none (e + 1) =
          some (none, e) from rfl]
        exact ih hts e

/-- C3: for every math subtree given to the translator, including
unsupported or malformed constructs that produce fallback tokens, the
returned notation string itself has balanced grouping braces and every
sized-delimiter opening command matched by a closing command: both
character-level scans of ommlToLatex succeed from depth zero and end
at depth zero. -/
theorem c3_balanced_output (children : List OmmlNode) :
    braceStr (ommlToLatex children) 0 = some 0 ∧
    delimStr (ommlToLatex children) 0 = some 0 := by
  have hsafe := ommlToks_safe children
  have hneu := ommlToks_neutral children
  constructor
  · show charBraceScan (renderToks (ommlToks children)).toList 0 = some 0
    rw [brace_bridge (ommlToks children) hsafe 0]
    exact hneu.1 0
  · show delimFlush (renderToks (ommlToks children)).toList none 0 = some 0
    rw [delim_bridge (ommlToks children) hsafe 0]
    exact hneu.2 0

/-- With no m:e child the delimiter construct has no operands. -/
theorem delimOps_nil : ∀ (cs : List OmmlNode) (subs : List (List LatexTok)),
    cs.any (hasTag "m:e") = false → delimOps cs subs = [] := by
  intro cs
  induction cs with
  | nil => intro subs h; rfl
  | cons c cs ih =>
    intro subs h
    rw [List.any_cons] at h
    have hc : hasTag "m:e" c = false := by
      cases hx : hasTag "m:e" c with
      | false => rfl
      | true => rw [hx] at h; simp at h
    have hcs : cs.any (hasTag "m:e") = false := by
      cases hx : cs.any (hasTag "m:e") with
      | false => rfl
      | true => rw [hx] at h; simp at h
    cases subs with
    | nil => rfl
    | cons s subs =>
      have harm : (match c with
          | OmmlNode.elem "m:e" _ => some s
          | _ => none) = none := by
        cases c with
        | textNode str => rfl
        | elem tg tcs =>
          have htg : ¬ tg = "m:e" := by
            simp [hasTag] at hc
            exact hc
          split
          · rename_i x0 kids heq
            injection heq with h1 h2
            exact absurd h1 htg
          · rfl
      simp only [delimOps, List.zip_cons_cons, List.filterMap_cons]
      rw [harm]
      exact ih subs hcs

/-- With no m:mr child the matrix has no rows. -/
theorem matrixRowsOf_nil : ∀ (cs : List OmmlNode) (grands : List (List (List LatexTok))),
    cs.any (hasTag "m:mr") = false → matrixRowsOf cs grands = [] := by
  intro cs
  induction cs with
  | nil => intro grands h; rfl
  | cons c cs ih =>
    intro grands h
    rw [List.any_cons] at h
    have hc : hasTag "m:mr" c = false := by
      cases hx : hasTag "m:mr" c with
      | false => rfl
      | true => rw [hx] at h; simp at h
    have hcs : cs.any (hasTag "m:mr") = false := by
      cases hx : cs.any (hasTag "m:mr") with
      | false => rfl
      | true => rw [hx] at h; simp at h
    cases grands with
    | nil => rfl
    | cons g grands =>
      have harm : (match c with
          | OmmlNode.elem "m:mr" cells => some (joinToks [LatexTok.lit "&"] (delimOps cells g))
          | _ => none) = none := by
        cases c with
        | textNode str => rfl
        | elem tg tcs =>
          have htg : ¬ tg = "m:mr" := by
            simp [hasTag] at hc
            exact hc
          split
          · rename_i x0 kids heq
            injection heq with h1 h2
            exact absurd h1 htg
          · rfl
      simp only [matrixRowsOf, List.zip_cons_cons, List.filterMap_cons]
      rw [harm]
      exact ih grands hcs

/-- A recognized construct whose children miss a required element
degrades to the fallback token. -/
theorem malformed_fallback {tag : String} (cs : List OmmlNode)
    (htag : tag ∈ knownTags) (hbad : ¬ wellShaped tag cs) :
    translateNode (.elem tag cs) = fallbackToks tag cs := by
  have hbad2 : wellShapedB tag cs = false := by
    cases hx : wellShapedB tag cs with
    | false => rfl
    | true => exact absurd hx hbad
  clear hbad
  simp only [translateNode]
  simp only [knownTags, List.mem_cons, List.not_mem_nil, or_false] at htag
  rcases htag with rfl | rfl | rfl | rfl | rfl | rfl | rfl | rfl | rfl | rfl | rfl | rfl
  · unfold renderElem
    simp only [String.reduceEq, reduceIte]
    simp only [wellShapedB] at hbad2
    split
    · simp at hbad2
    · rfl
  · unfold renderElem
    simp only [String.reduceEq, reduceIte]
    simp only [wellShapedB] at hbad2
    split
    · simp at hbad2
    · rfl
  · unfold renderElem
    simp only [String.reduceEq, reduceIte]
    simp only [wellShapedB] at hbad2
    split
    · simp at hbad2
    · rfl
  · unfold renderElem
    simp only [String.reduceEq, reduceIte]
    simp only [wellShapedB] at hbad2
    split
    · simp at hbad2
    · rfl
  · unfold renderElem
    simp only [String.reduceEq, reduceIte]
    simp only [wellShapedB] at hbad2
    split
    · simp at hbad2
    · simp at hbad2
    · rfl
  · unfold renderElem
    simp only [String.reduceEq, reduceIte]
    simp only [wellShapedB] at hbad2
    split
    · simp at hbad2
    · rfl
  · unfold renderElem
    simp only [String.reduceEq, reduceIte]
    simp only [wellShapedB] at hbad2
    rw [delimOps_nil cs (childToks cs) hbad2]
  · unfold renderElem
    simp only [String.reduceEq, reduceIte]
    simp only [wellShapedB] at hbad2
    split
    · rename_i pr kids hd te heq
      simp at hbad2
      cases hacc : accCmd (extractTextList pr) with
      | some cmd =>
        rw [hacc] at hbad2
        simp at hbad2
      | none => rfl
    · rfl
  · unfold renderElem
    simp only [String.reduceEq, reduceIte]
    simp only [wellShapedB] at hbad2
    rw [matrixRowsOf_nil cs (grandToks cs) hbad2]
  · unfold renderElem
    simp only [String.reduceEq, reduceIte]
    simp only [wellShapedB] at hbad2
    split
    · simp at hbad2
    · rfl
  · unfold renderElem
    simp only [String.reduceEq, reduceIte]
    simp only [wellShapedB] at hbad2
    rw [hbad2]
    simp only [Bool.false_eq_true, if_false]
  · rw [show wellShapedB "m:t" cs = true from rfl] at hbad2
    exact Bool.noConfusion hbad2

/-- C4: any unrecognized math tag, and any recognized construct
missing a required child, translates to the visible fallback token of
its construct (never an error); translation of the siblings after such
a node is simply appended, unchanged; and the concrete weirdConstruct
example containing literal text x renders as a fallback embedding both
the tag name and the text, followed by the normal output of the next
run. -/
theorem c4_fallback_and_continuation (tag : String) (cs rest : List OmmlNode) :
    (unknownMathTag tag → translateNode (.elem tag cs) = fallbackToks tag cs) ∧
    (tag ∈ knownTags → ¬ wellShaped tag cs →
      translateNode (.elem tag cs) = fallbackToks tag cs) ∧
    ommlToks (.elem tag cs :: rest) = translateNode (.elem tag cs) ++ ommlToks rest ∧
    ommlToLatex [weirdNode, goodNode] =
      "\\text\x7b[UNSUPPORTED: weirdConstruct] x\x7dy" := by
  refine ⟨?_, fun h1 h2 => malformed_fallback cs h1 h2, by simp only [ommlToks], ?_⟩
  · intro h
    obtain ⟨h1, h2, h3⟩ := h
    have hne : ∀ s ∈ knownTags, ¬ tag = s := fun s hs he => h2 (he ▸ hs)
    simp only [translateNode]
    unfold renderElem
    rw [if_neg (hne "m:f" (by decide)), if_neg (hne "m:sSup" (by decide)),
      if_neg (hne "m:sSub" (by decide)), if_neg (hne "m:sSubSup" (by decide)),
      if_neg (hne "m:rad" (by decide)), if_neg (hne "m:nary" (by decide)),
      if_neg (hne "m:d" (by decide)), if_neg (hne "m:acc" (by decide)),
      if_neg (hne "m:m" (by decide)), if_neg (hne "m:func" (by decide)),
      if_neg (hne "m:r" (by decide)), if_neg (hne "m:t" (by decide)),
      if_neg h3, if_pos h1]
  · simp only [ommlToLatex, translateNode, childToks, grandToks, ommlToks,
      weirdNode, goodNode]
    decide

/-- The C4 theorem applied concretely: at the unknown weirdConstruct
tag, at a run missing its required text child, and at the
weirdConstruct-then-run document, with every hypothesis checked by
computation. -/
theorem c4_witness :
    translateNode (.elem "m:weirdConstruct" [.elem "m:t" [.textNode "x"]]) =
      fallbackToks "m:weirdConstruct" [.elem "m:t" [.textNode "x"]] ∧
    translateNode (.elem "m:r" ([] : List OmmlNode)) = fallbackToks "m:r" [] ∧
    ommlToLatex [weirdNode, goodNode] =
      "\\text\x7b[UNSUPPORTED: weirdConstruct] x\x7dy" :=
  ⟨(c4_fallback_and_continuation "m:weirdConstruct" [.elem "m:t" [.textNode "x"]] []).1
      (by decide),
   (c4_fallback_and_continuation "m:r" [] []).2.1 (by decide) (by decide),
   (c4_fallback_and_continuation "m:weirdConstruct" [] []).2.2.2⟩

end Omml

namespace RoundTrip

/-- Unfolding of the parser on a line with no open fence. -/
theorem parseLines_cons_none (l : List Char) (ls : List (List Char)) :
    parseLines (l :: ls) none =
      if fenceLine l then parseLines ls (some [])
      else if blankLine l then parseLines ls none
      else
        match headingOf l with
        | some (k, t) => Blk.heading k t :: parseLines ls none
        | none =>
          match listOf l with
          | some (o, t) => Blk.listItem o t :: parseLines ls none
          | none => Blk.para l :: parseLines ls none := rfl

/-- Unfolding of the parser on a line inside an open fence. -/
theorem parseLines_cons_some (l : List Char) (ls : List (List Char))
    (body : List (List Char)) :
    parseLines (l :: ls) (some body) =
      if fenceLine l then Blk.codeBlock body.reverse true :: parseLines ls none
      else parseLines ls (some (l :: body)) := rfl

/-- The takeWhile of the heading-marker run stops at the space. -/
theorem repl_takeWhile (k : Nat) (t : List Char) :
    (List.replicate k '#' ++ ' ' :: t).takeWhile (fun c => c = '#') =
      List.replicate k '#' := by
  induction k with
  | zero => rfl
  | succ n ih => simp [List.replicate_succ, List.takeWhile_cons, ih]

/-- The character after the marker run is the space. -/
theorem repl_get (k : Nat) (t : List Char) :
    (List.replicate k '#' ++ ' ' :: t).get? k = some ' ' := by
  induction k with
  | zero => rfl
  | succ n ih => simpa [List.replicate_succ] using ih

/-- Dropping the marker run and the space leaves the text. -/
theorem repl_drop (k : Nat) (t : List Char) :
    (List.replicate k '#' ++ ' ' :: t).drop (k + 1) = t := by
  induction k with
  | zero => rfl
  | succ n ih => simpa [List.replicate_succ] using ih

/-- A rendered heading line parses back to the same heading. -/
theorem headingOf_render (k : Nat) (t : List Char) (hk : 1 ≤ k) :
    headingOf (List.replicate k '#' ++ ' ' :: t) = some (k, t) := by
  unfold headingOf
  rw [repl_takeWhile, List.length_replicate]
  rw [if_pos ⟨hk, repl_get k t⟩]
  rw [repl_drop]

/-- A rendered heading line is not a fence line. -/
theorem heading_not_fence (k : Nat) (t : List Char) (hk : 1 ≤ k) :
    fenceLine (List.replicate k '#' ++ ' ' :: t) = false := by
  obtain ⟨m, rfl⟩ : ∃ m, k = m + 1 := ⟨k - 1, by omega⟩
  rfl

/-- A rendered heading line is not blank. -/
theorem heading_not_blank (k : Nat) (t : List Char) (hk : 1 ≤ k) :
    blankLine (List.replicate k '#' ++ ' ' :: t) = false := by
  obtain ⟨m, rfl⟩ : ∃ m, k = m + 1 := ⟨k - 1, by omega⟩
  rfl

/-- A rendered heading line parses as that heading and the parse
continues. -/
theorem parse_render_heading (k : Nat) (t : List Char) (rest : List (List Char))
    (hk : 1 ≤ k) :
    parseLines ((List.replicate k '#' ++ ' ' :: t) :: rest) none =
      Blk.heading k t :: parseLines rest none := by
  rw [parseLines_cons_none, heading_not_fence k t hk, heading_not_blank k t hk,
    headingOf_render k t hk]
  simp

/-- A rendered bullet line parses as an unordered item. -/
theorem parse_render_bullet (t : List Char) (rest : List (List Char)) :
    parseLines (('-' :: ' ' :: t) :: rest) none =
      Blk.listItem false t :: parseLines rest none := rfl

/-- A rendered numbered line parses as an ordered item. -/
theorem parse_render_number (t : List Char) (rest : List (List Char)) :
    parseLines (('1' :: '.' :: ' ' :: t) :: rest) none =
      Blk.listItem true t :: parseLines rest none := rfl

/-- Inside an open fence the parser accumulates fence-free lines until
the closing fence and emits the closed code block. -/
theorem parse_code_accum (body : List (List Char))
    (hbody : ∀ l ∈ body, fenceLine l = false) :
    ∀ (acc rest : List (List Char)),
      parseLines (body ++ fence3 :: rest) (some acc) =
        Blk.codeBlock (acc.reverse ++ body) true :: parseLines rest none := by
  induction body with
  | nil =>
    intro acc rest
    rw [List.nil_append, parseLines_cons_some,
      if_pos (show fenceLine fence3 = true from rfl)]
    simp
  | cons l body ih =>
    intro acc rest
    have hl : fenceLine l = false := hbody l (by simp)
    have hrest : ∀ x ∈ body, fenceLine x = false :=
      fun x hx => hbody x (List.mem_cons_of_mem l hx)
    rw [List.cons_append, parseLines_cons_some, hl]
    simp only [Bool.false_eq_true, if_false]
    rw [ih hrest (l :: acc) rest]
    simp

/-- A parsed heading has a positive level. -/
theorem headingOf_pos {l : List Char} {k : Nat} {t : List Char}
    (h : headingOf l = some (k, t)) : 1 ≤ k := by
  simp only [headingOf] at h
  split at h
  · rename_i hc
    injection h with h2
    injection h2 with h3 h4
    subst h3
    exact hc.1
  · exact absurd h (by simp)

/-- Parsing the rendering of good closed blocks returns those blocks. -/
theorem parse_render (bs : List Blk) (h : ∀ b ∈ bs, goodBlk b ∧ closedBlk b) :
    parseMd (renderMd bs) = bs := by
  induction bs with
  | nil => rfl
  | cons b bs ih =>
    have hb := (h b (by simp)).1
    have hcl := (h b (by simp)).2
    have hrest : ∀ x ∈ bs, goodBlk x ∧ closedBlk x :=
      fun x hx => h x (List.mem_cons_of_mem b hx)
    have ih2 : parseLines (renderMd bs) none = bs := ih hrest
    show parseLines (renderMd (b :: bs)) none = b :: bs
    have hr : renderMd (b :: bs) = renderBlk b ++ renderMd bs := by
      simp [renderMd]
    rw [hr]
    cases b with
    | heading k t =>
      exact (parse_render_heading k t (renderMd bs) hb).trans
        (congrArg (fun x => Blk.heading k t :: x) ih2)
    | listItem o t =>
      cases o with
      | false =>
        exact (parse_render_bullet t (renderMd bs)).trans
          (congrArg (fun x => Blk.listItem false t :: x) ih2)
      | true =>
        exact (parse_render_number t (renderMd bs)).trans
          (congrArg (fun x => Blk.listItem true t :: x) ih2)
    | codeBlock body closed =>
      have hc : closed = true := hcl
      subst hc
      show parseLines (fence3 :: ((body ++ [fence3]) ++ renderMd bs)) none = _
      rw [parseLines_cons_none, if_pos (show fenceLine fence3 = true from rfl)]
      rw [show (body ++ [fence3]) ++ renderMd bs = body ++ fence3 :: renderMd bs by simp]
      rw [parse_code_accum body hb [] (renderMd bs)]
      simp [ih2]
    | para t =>
      obtain ⟨hf, hbk, hh, hl⟩ := hb
      show parseLines (t :: renderMd bs) none = _
      rw [parseLines_cons_none]
      simp only [hf, hbk, hh, hl, Bool.false_eq_true, if_false]
      rw [ih2]

/-- Every block the parser emits is good, provided the lines already
accumulated inside an open fence are fence-free. -/
theorem parseLines_good :
    ∀ (ls : List (List Char)) (st : Option (List (List Char))),
      (∀ body, st = some body → ∀ l ∈ body, fenceLine l = false) →
      ∀ b ∈ parseLines ls st, goodBlk b := by
  intro ls
  induction ls with
  | nil =>
    intro st hst b hb
    cases st with
    | none => simp [parseLines] at hb
    | some body =>
      rw [show parseLines [] (some body) = [Blk.codeBlock body.reverse false] from rfl] at hb
      simp at hb
      subst hb
      show ∀ x ∈ body.reverse, fenceLine x = false
      intro x hx
      exact hst body rfl x (List.mem_reverse.mp hx)
  | cons l ls ih =>
    intro st hst b hb
    cases st with
    | some body =>
      rw [parseLines_cons_some] at hb
      by_cases hf : fenceLine l = true
      · rw [if_pos hf] at hb
        rcases List.mem_cons.mp hb with h | h
        · subst h
          show ∀ x ∈ body.reverse, fenceLine x = false
          intro x hx
          exact hst body rfl x (List.mem_reverse.mp hx)
        · exact ih none (fun body2 hbody2 => Option.noConfusion hbody2) b h
      · rw [if_neg hf] at hb
        refine ih (some (l :: body)) ?_ b hb
        intro body2 hbody2 x hx
        injection hbody2 with h2
        subst h2
        rcases List.mem_cons.mp hx with h | h
        · subst h
          simpa using hf
        · exact hst body rfl x h
    | none =>
      rw [parseLines_cons_none] at hb
      by_cases hf : fenceLine l = true
      · rw [if_pos hf] at hb
        refine ih (some []) ?_ b hb
        intro body2 hbody2 x hx
        injection hbody2 with h2
        subst h2
        exact absurd hx (by simp)
      · rw [if_neg hf] at hb
        by_cases hbl : blankLine l = true
        · rw [if_pos hbl] at hb
          exact ih none (fun body2 hbody2 => Option.noConfusion hbody2) b hb
        · rw [if_neg hbl] at hb
          revert hb
          cases hh : headingOf l with
          | some kt =>
            obtain ⟨k, t⟩ := kt
            intro hb
            rcases List.mem_cons.mp hb with h | h
            · subst h
              show 1 ≤ k
              exact headingOf_pos hh
            · exact ih none (fun body2 hbody2 => Option.noConfusion hbody2) b h
          | none =>
            cases hl2 : listOf l with
            | some ot =>
              obtain ⟨o, t⟩ := ot
              intro hb
              rcases List.mem_cons.mp hb with h | h
              · subst h
                trivial
              · exact ih none (fun body2 hbody2 => Option.noConfusion hbody2) b h
            | none =>
              intro hb
              rcases List.mem_cons.mp hb with h | h
              · subst h
                exact ⟨by simpa using hf, by simpa using hbl, hh, hl2⟩
              · exact ih none (fun body2 hbody2 => Option.noConfusion hbody2) b h

/-- The package round trip of one block keeps its heading flag. -/
theorem rtBlock_isHeading (b : Blk) : isHeadingBlk (rtBlock b) = isHeadingBlk b := by
  cases b with
  | heading k t => rfl
  | listItem o t => cases o <;> rfl
  | codeBlock body c => rfl
  | para t => rfl

/-- The package round trip of one block keeps its code flag. -/
theorem rtBlock_isCode (b : Blk) : isCodeBlk (rtBlock b) = isCodeBlk b := by
  cases b with
  | heading k t => rfl
  | listItem o t => cases o <;> rfl
  | codeBlock body c => rfl
  | para t => rfl

/-- The package round trip of one block keeps its list flag. -/
theorem rtBlock_isList (b : Blk) : isListBlk (rtBlock b) = isListBlk b := by
  cases b with
  | heading k t => rfl
  | listItem o t => cases o <;> rfl
  | codeBlock body c => rfl
  | para t => rfl

/-- The package round trip of one block keeps its plain text. -/
theorem rtBlock_text (b : Blk) : blockText (rtBlock b) = blockText b := by
  cases b with
  | heading k t => rfl
  | listItem o t => cases o <;> rfl
  | codeBlock body c => rfl
  | para t => rfl

/-- The package round trip of one block keeps goodness. -/
theorem rtBlock_good (b : Blk) (h : goodBlk b) : goodBlk (rtBlock b) := by
  cases b with
  | heading k t => exact h
  | listItem o t => cases o <;> trivial
  | codeBlock body c => exact h
  | para t => exact h

/-- The package round trip closes every block. -/
theorem rtBlock_closed (b : Blk) : closedBlk (rtBlock b) := by
  cases b with
  | heading k t => trivial
  | listItem o t => cases o <;> trivial
  | codeBlock body c => trivial
  | para t => trivial

/-- Filters commuting with the block round trip keep their count. -/
theorem count_rtBlock (p : Blk → Bool) (hp : ∀ b, p (rtBlock b) = p b) (bs : List Blk) :
    ((bs.map rtBlock).filter p).length = (bs.filter p).length := by
  rw [List.filter_map, List.length_map]
  congr 1
  apply List.filter_congr
  intro a _
  exact hp a

/-- Parsing the round-tripped document gives the round trip of the
parsed blocks. -/
theorem roundTrip_blocks (ls : List (List Char)) :
    parseMd (roundTrip ls) = (parseMd ls).map rtBlock := by
  have h1 : ((parseMd ls).map blockToDocx).map docxToBlock = (parseMd ls).map rtBlock := by
    rw [List.map_map]
    rfl
  show parseMd (renderMd (((parseMd ls).map blockToDocx).map docxToBlock)) = _
  rw [h1]
  rw [parse_render]
  intro b hb
  rcases List.mem_map.mp hb with ⟨a, ha, rfl⟩
  exact ⟨rtBlock_good a (parseLines_good ls none
    (fun body hbody => Option.noConfusion hbody) a ha), rtBlock_closed a⟩

/-- C2: converting a document to the markup dialect and back through
the package preserves the heading count exactly, the code-block count
exactly, at least half the list-item count, and the plain-text words
outside code regions. -/
theorem c2_roundtrip_fidelity (ls : List (List Char)) :
    headingCount (roundTrip ls) = headingCount ls ∧
    codeBlockCount (roundTrip ls) = codeBlockCount ls ∧
    listItemCount ls ≤ 2 * listItemCount (roundTrip ls) ∧
    wordsOutsideCode (roundTrip ls) = wordsOutsideCode ls := by
  have hb := roundTrip_blocks ls
  have hh : headingCount (roundTrip ls) = headingCount ls := by
    unfold headingCount
    rw [hb]
    exact count_rtBlock isHeadingBlk rtBlock_isHeading (parseMd ls)
  have hc : codeBlockCount (roundTrip ls) = codeBlockCount ls := by
    unfold codeBlockCount
    rw [hb]
    exact count_rtBlock isCodeBlk rtBlock_isCode (parseMd ls)
  have hl : listItemCount (roundTrip ls) = listItemCount ls := by
    unfold listItemCount
    rw [hb]
    exact count_rtBlock isListBlk rtBlock_isList (parseMd ls)
  have hw : wordsOutsideCode (roundTrip ls) = wordsOutsideCode ls := by
    unfold wordsOutsideCode
    rw [hb, List.map_map]
    congr 1
    apply List.map_congr_left
    intro a _
    show wordsOf (blockText (rtBlock a)) = wordsOf (blockText a)
    rw [rtBlock_text]
  exact ⟨hh, hc, by omega, hw⟩

end RoundTrip

namespace MdToDocx

/-- Membership in a one-element conditional list. -/
theorem mem_ite_single {c : Bool} {a m : Marker} :
    (a ∈ if c then [m] else []) ↔ (c = true ∧ a = m) := by
  split <;> simp_all

/-- Bold marker count in a one-element conditional list of another
marker. -/
theorem count_bold_ite {c : Bool} {m : Marker} (hm : m ≠ Marker.boldM) :
    (if c then [m] else []).count Marker.boldM = 0 := by
  cases c <;> simp [List.count_cons, List.count_nil, hm]

/-- Which vertical-alignment markers generateRPr emits. -/
theorem vertAlign_mem (s : MdRun) (b : Bool) :
    Marker.vertAlign b ∈ rprMarkers s ↔
      (s.superscript = true ∧ b = true) ∨
      (s.superscript = false ∧ s.subscript = true ∧ b = false) := by
  rcases hs : s.superscript <;> rcases ht : s.subscript <;>
    simp [rprMarkers, List.mem_append, hs, ht, mem_ite_single]

/-- C6: for every table with a header row converted from markup to the
package, each header cell run is rendered bold even when the source
run carries no bold flag, and exactly one bold marker is emitted per
header run even when the source run was already bold. -/
theorem c6_header_cells_bold (r : MdRun) :
    Marker.boldM ∈ rprMarkers (cellRun true r) ∧
    (rprMarkers (cellRun true r)).count Marker.boldM = 1 := by
  have hb : (cellRun true r).bold = true := rfl
  constructor
  · simp [rprMarkers, hb, List.mem_append]
  · simp only [rprMarkers, hb, if_true, List.count_append]
    have h1 : (if (cellRun true r).code then [Marker.codeStyle] else []).count Marker.boldM = 0 :=
      count_bold_ite (by simp)
    have h2 : (if (cellRun true r).italic then [Marker.italicM] else []).count Marker.boldM = 0 :=
      count_bold_ite (by simp)
    have h3 : (if (cellRun true r).strikethrough then [Marker.strikeM] else []).count
        Marker.boldM = 0 := count_bold_ite (by simp)
    have h4 : (if (cellRun true r).underline then [Marker.underlineM] else []).count
        Marker.boldM = 0 := count_bold_ite (by simp)
    have h5 : (if (cellRun true r).highlight then
        [Marker.highlightM ((cellRun true r).highlightColor.getD "yellow")] else []).count
        Marker.boldM = 0 := count_bold_ite (by simp)
    have h6 : (if (cellRun true r).superscript then [Marker.vertAlign true]
        else if (cellRun true r).subscript then [Marker.vertAlign false] else []).count
        Marker.boldM = 0 := by
      rcases hs : (cellRun true r).superscript <;> rcases ht : (cellRun true r).subscript <;>
        simp [List.count_cons, List.count_nil]
    rw [h1, h2, h3, h4, h5, h6]
    simp [List.count_cons, List.count_nil]

/-- C7: for every text run with both the superscript and subscript
flags set, the rendered run properties contain the superscript marker
and not the subscript marker, and no run ever renders both. -/
theorem c7_superscript_precedence (r : MdRun)
    (hsup : r.superscript = true) (_hsub : r.subscript = true) :
    Marker.vertAlign true ∈ rprMarkers r ∧
    Marker.vertAlign false ∉ rprMarkers r ∧
    ∀ s : MdRun, ¬ (Marker.vertAlign true ∈ rprMarkers s ∧
      Marker.vertAlign false ∈ rprMarkers s) := by
  refine ⟨(vertAlign_mem r true).mpr (Or.inl ⟨hsup, rfl⟩), ?_, ?_⟩
  · intro h
    rcases (vertAlign_mem r false).mp h with ⟨_, hff⟩ | ⟨hns, _, _⟩
    · exact Bool.false_ne_true hff
    · rw [hsup] at hns; simp at hns
  · intro s h
    rcases h with ⟨h1, h2⟩
    rcases (vertAlign_mem s true).mp h1 with ⟨ha, _⟩ | ⟨_, _, hbad⟩
    · rcases (vertAlign_mem s false).mp h2 with ⟨_, hff⟩ | ⟨hns, _, _⟩
      · exact Bool.false_ne_true hff
      · rw [ha] at hns; simp at hns
    · simp at hbad

/-- Witness for C7 at a run carrying both flags. -/
theorem c7_witness :
    (({ plainRun "both" with superscript := true, subscript := true } : MdRun).superscript = true ∧
     ({ plainRun "both" with superscript := true, subscript := true } : MdRun).subscript = true) ∧
    (Marker.vertAlign true ∈
       rprMarkers { plainRun "both" with superscript := true, subscript := true } ∧
     Marker.vertAlign false ∉
       rprMarkers { plainRun "both" with superscript := true, subscript := true } ∧
     ∀ s : MdRun, ¬ (Marker.vertAlign true ∈ rprMarkers s ∧
       Marker.vertAlign false ∈ rprMarkers s)) :=
  ⟨⟨rfl, rfl⟩,
   c7_superscript_precedence { plainRun "both" with superscript := true, subscript := true } rfl rfl⟩

end MdToDocx

namespace MarkupBuilder

/-- The last element of a list with one appended element. -/
theorem getLast_concat_eq {α : Type} {l : List α} {c x : α}
    (hx : (l ++ [c]).getLast? = some x) : x = c := by
  rw [List.getLast?_concat] at hx
  exact (Option.some.inj hx).symm

/-- The adjacency relation of displaySeparated. -/
theorem dispRel_sep_right (a : Chunk) :
    (a.isDisplay = true → Chunk.sep = Chunk.sep) ∧
    (Chunk.sep.isDisplay = true → a = Chunk.sep) := by
  constructor
  · intro _; rfl
  · intro h; simp [Chunk.isDisplay] at h

/-- Appending a single chunk to a separated output keeps it separated
when the new adjacent pair is admissible. -/
theorem displaySeparated_append_one {out : List Chunk} {c : Chunk}
    (h : displaySeparated out)
    (hl : ∀ x, out.getLast? = some x →
      (x.isDisplay = true → c = Chunk.sep) ∧ (c.isDisplay = true → x = Chunk.sep)) :
    displaySeparated (out ++ [c]) := by
  unfold displaySeparated at h ⊢
  rw [List.chain'_append]
  refine ⟨h, List.chain'_singleton c, ?_⟩
  intro x hx y hy
  simp only [List.head?_cons, Option.mem_def, Option.some.injEq] at hy
  subst hy
  exact hl x hx

/-- A last chunk passing the separator test is the separator. -/
theorem endsWithSep_getLast {out : List Chunk} {x : Chunk}
    (h : endsWithSep out = true) (hx : out.getLast? = some x) : x = Chunk.sep := by
  unfold endsWithSep at h
  rw [hx] at h
  cases x <;> simp [Chunk.isSep] at h ⊢

/-- A last chunk failing the display test is not a display block. -/
theorem endsWithDisplay_getLast {out : List Chunk} {x : Chunk}
    (h : endsWithDisplay out = false) (hx : out.getLast? = some x) : x.isDisplay = false := by
  unfold endsWithDisplay at h
  rw [hx] at h
  exact h

/-- The builder keeps the output separated around display blocks. -/
theorem buildChunks_separated (items : List ContentItem) :
    ∀ out : List Chunk, displaySeparated out → displaySeparated (buildChunks items out) := by
  induction items with
  | nil => intro out h; simpa [buildChunks] using h
  | cons item rest ih =>
    intro out h
    cases item with
    | math l display =>
      cases display with
      | true =>
        show displaySeparated (buildChunks rest _)
        by_cases hc : (out.isEmpty || endsWithSep out) = true
        · simp only [buildChunks, hc, if_true]
          apply ih
          apply displaySeparated_append_one h
          intro x hx
          rcases Bool.or_eq_true_iff.mp hc with he | hs
          · rw [List.isEmpty_iff] at he
            subst he
            simp at hx
          · have := endsWithSep_getLast hs hx
            subst this
            exact ⟨fun h2 => by simp [Chunk.isDisplay] at h2, fun _ => rfl⟩
        · simp only [buildChunks, hc, if_false]
          apply ih
          have hsep : displaySeparated (out ++ [Chunk.sep]) :=
            displaySeparated_append_one h (fun x _ => dispRel_sep_right x)
          apply displaySeparated_append_one hsep
          intro x hx
          have hxc := getLast_concat_eq hx
          subst hxc
          exact ⟨fun h2 => by simp [Chunk.isDisplay] at h2, fun _ => rfl⟩
      | false =>
        show displaySeparated (buildChunks rest _)
        by_cases hc : endsWithDisplay out = true
        · simp only [buildChunks, hc, if_true]
          apply ih
          have hsep : displaySeparated (out ++ [Chunk.sep]) :=
            displaySeparated_append_one h (fun x _ => dispRel_sep_right x)
          apply displaySeparated_append_one hsep
          intro x hx
          have hxc := getLast_concat_eq hx
          subst hxc
          refine ⟨fun h2 => by simp [Chunk.isSep, Chunk.isDisplay] at h2, fun h2 => ?_⟩
          simp [Chunk.isDisplay] at h2
        · simp only [buildChunks, hc, if_false]
          apply ih
          apply displaySeparated_append_one h
          intro x hx
          have hnd := endsWithDisplay_getLast (Bool.not_eq_true _ ▸ hc) hx
          refine ⟨fun h2 => ?_, fun h2 => ?_⟩
          · rw [h2] at hnd; exact absurd hnd (by simp)
          · simp [Chunk.isDisplay] at h2
    | para s =>
      show displaySeparated (buildChunks rest _)
      by_cases hc : out.isEmpty = true
      · simp only [buildChunks, hc, if_true]
        apply ih
        apply displaySeparated_append_one h
        intro x hx
        rw [List.isEmpty_iff] at hc
        subst hc
        simp at hx
      · simp only [buildChunks, hc, if_false]
        apply ih
        have hsep : displaySeparated (out ++ [Chunk.sep]) :=
          displaySeparated_append_one h (fun x _ => dispRel_sep_right x)
        apply displaySeparated_append_one hsep
        intro x hx
        have hxc := getLast_concat_eq hx
        subst hxc
        refine ⟨fun h2 => by simp [Chunk.isSep, Chunk.isDisplay] at h2, fun h2 => ?_⟩
        simp [Chunk.isDisplay] at h2

/-- C5: for every content-item sequence rendered by the markup
builder, every inline math item is wrapped in single-character
delimiters, every display math item is wrapped in double-character
delimiters on its own lines, and every display block adjacent to any
other chunk has the blank-line separator as that neighbour. -/
theorem c5_math_delimiters (items : List ContentItem) :
    displaySeparated (buildChunks items []) ∧
    (∀ l, renderChunk (Chunk.inlineMath l) = "$" ++ l ++ "$") ∧
    (∀ l, renderChunk (Chunk.displayMath l) = "$$\n" ++ l ++ "\n$$") ∧
    renderChunk Chunk.sep = "\n\n" :=
  ⟨buildChunks_separated items [] (List.chain'_nil), fun _ => rfl, fun _ => rfl, rfl⟩

end MarkupBuilder

